import Mathlib

/-!
Verification development for the AUTON orchestrator.

This file gives a shallow embedding of the core data structures and
operations of the repository (task graph, scheduler, cost tracker,
tool-use loop, message bus, test-output parsing, composition
validation) and proves properties of them.

Conventions of the embedding:
* Python dicts are insertion-ordered association lists
  `List (String × α)`; lookup is first match, update maps over the
  entries with the given key, a new key is appended at the end.
* Python sets (used for the reverse-dependency map and for the
  de-duplicated names of passing tests) are lists without duplicates;
  element insertion appends when absent.
* Python exceptions are modelled either by `Except` results or by a
  `state × Option error` pair when the claim is about the state at the
  moment the exception is raised.
* Python floats (costs in USD) are modelled as rationals `ℚ`; the code
  under study only adds and compares them.
-/

namespace Auton

/-- States of a task, from `TaskState` in `core/task_graph.py`. -/
inductive TaskState where
  | pending
  | ready
  | running
  | review
  | approved
  | merged
  | blocked
  | failed
deriving DecidableEq, Repr

/-- A task in the dependency graph, from `TaskNode` in
`core/task_graph.py`.  The free-form `data` dict (type `Any` in the
source) carries no behaviour used by any operation modelled here and is
omitted. -/
structure TaskNode where
  task_id : String
  title : String
  subsystem : String
  assigned_to : String
  priority : Int
  state : TaskState
  dependencies : List String
  assigned_agent_id : Option String
deriving DecidableEq, Repr

/-- The task graph state: `_nodes` (dict task id → node) and
`_dependents` (defaultdict task id → set of ids of tasks depending on
it), from `TaskGraph.__init__`. -/
structure TaskGraph where
  nodes : List (String × TaskNode)
  dependents : List (String × List String)
deriving DecidableEq, Repr

/-- The empty graph produced by `TaskGraph.__init__`. -/
def TaskGraph.empty : TaskGraph := ⟨[], []⟩

/-- Dict lookup `self._nodes.get(task_id)`. -/
def lookupNode (g : TaskGraph) (id : String) : Option TaskNode :=
  (g.nodes.find? (fun p => p.1 == id)).map (·.2)

/-- State of the task with the given id, if present. -/
def stateOf (g : TaskGraph) (id : String) : Option TaskState :=
  (lookupNode g id).map (·.state)

/-- Update the entry stored under a key of an association list of
nodes, leaving every other entry unchanged (dict item assignment for an
existing key). -/
def mapNodeAt (nodes : List (String × TaskNode)) (id : String)
    (f : TaskNode → TaskNode) : List (String × TaskNode) :=
  nodes.map (fun p => if p.1 == id then (p.1, f p.2) else p)

/-- Assignment `node.state = s` for the node stored under `id`. -/
def setState (g : TaskGraph) (id : String) (s : TaskState) : TaskGraph :=
  { g with nodes := mapNodeAt g.nodes id (fun n => { n with state := s }) }

/-- Read `self._dependents.get(task_id, set())`. -/
def dependentsOf (g : TaskGraph) (id : String) : List String :=
  ((g.dependents.find? (fun p => p.1 == id)).map (·.2)).getD []

/-- Dependency check of `TaskGraph._update_readiness`: every dependency
id resolves to a node in the graph whose state is `merged`.  The
source's loop returns early on the first unknown or unmerged
dependency, which is exactly the `all` semantics. -/
def depsMet (g : TaskGraph) (n : TaskNode) : Bool :=
  n.dependencies.all (fun dep =>
    match lookupNode g dep with
    | none => false
    | some d => d.state = TaskState.merged)

/-- `TaskGraph._update_readiness`: a pending task whose dependencies
are all merged becomes ready; any other task is left untouched. -/
def updateReadiness (g : TaskGraph) (id : String) : TaskGraph :=
  match lookupNode g id with
  | none => g
  | some node =>
    if node.state = TaskState.pending then
      (if depsMet g node then setState g id TaskState.ready else g)
    else g

/-- Body of the cascade loop in `TaskGraph.update_state`: dependents
present in `_nodes` get a readiness check. -/
def cascadeStep (acc : TaskGraph) (dep : String) : TaskGraph :=
  if (lookupNode acc dep).isSome then updateReadiness acc dep else acc

/-- `TaskGraph.update_state`.  The second component is the `KeyError`
message when the task id is unknown; in that case the graph is the
unmodified input, since the source raises before mutating anything. -/
def updateState (g : TaskGraph) (id : String) (s : TaskState) :
    TaskGraph × Option String :=
  match lookupNode g id with
  | none => (g, some ("Unknown task: " ++ id))
  | some _ =>
    let g1 := setState g id s
    if s = TaskState.merged then
      ((dependentsOf g1 id).foldl cascadeStep g1, none)
    else (g1, none)

/-- `TaskGraph.assign_agent`: record the agent id and set the state to
running.  An unknown id raises `KeyError` (second component). -/
def assignAgent (g : TaskGraph) (id : String) (agentId : String) :
    TaskGraph × Option String :=
  match lookupNode g id with
  | none => (g, some ("KeyError: " ++ id))
  | some _ =>
    let f : TaskNode → TaskNode := fun n =>
      { n with assigned_agent_id := some agentId, state := TaskState.running }
    ({ g with nodes := mapNodeAt g.nodes id f }, none)

/-- `TaskGraph.get_task`: plain dict `.get`, `none` when absent. -/
def getTask (g : TaskGraph) (id : String) : Option TaskNode :=
  lookupNode g id

/-- Input dict for `TaskGraph.add_task` (the fields the constructor
reads, with their defaults already applied). -/
structure TaskSpec where
  task_id : String
  title : String
  subsystem : String
  assigned_to : String
  priority : Int
  dependencies : List String
deriving DecidableEq, Repr

/-- Dict item assignment `self._nodes[id] = node`: replace an existing
key in place, append a new one. -/
def assocSetNode (nodes : List (String × TaskNode)) (k : String)
    (v : TaskNode) : List (String × TaskNode) :=
  if nodes.any (fun p => p.1 == k) then
    nodes.map (fun p => if p.1 == k then (k, v) else p)
  else nodes ++ [(k, v)]

/-- Set insertion `self._dependents[dep].add(task_id)` (a Python set
ignores duplicates). -/
def setAdd (l : List String) (x : String) : List String :=
  if l.contains x then l else l ++ [x]

/-- Insertion into the defaultdict `self._dependents`. -/
def addDependent (deps : List (String × List String)) (dep : String)
    (taskId : String) : List (String × List String) :=
  if deps.any (fun p => p.1 == dep) then
    deps.map (fun p => if p.1 == dep then (p.1, setAdd p.2 taskId) else p)
  else deps ++ [(dep, [taskId])]

/-- `TaskGraph.add_task`: build the node (initial state pending),
store it, record the reverse dependencies, and check readiness. -/
def addTask (g : TaskGraph) (t : TaskSpec) : TaskGraph :=
  let node : TaskNode :=
    { task_id := t.task_id, title := t.title, subsystem := t.subsystem,
      assigned_to := t.assigned_to, priority := t.priority,
      state := TaskState.pending, dependencies := t.dependencies,
      assigned_agent_id := none }
  let g1 : TaskGraph :=
    { nodes := assocSetNode g.nodes node.task_id node,
      dependents := node.dependencies.foldl
        (fun d dep => addDependent d dep node.task_id) g.dependents }
  updateReadiness g1 node.task_id

/-- `TaskGraph.add_tasks`: add every task, then re-check readiness of
each added task. -/
def addTasks (g : TaskGraph) (ts : List TaskSpec) : TaskGraph :=
  let g1 := ts.foldl addTask g
  ts.foldl (fun acc t => updateReadiness acc t.task_id) g1

/-- Keys of the node dict, in insertion order. -/
def nodeKeys (g : TaskGraph) : List String := g.nodes.map (·.1)

/-- Well-formedness of a graph state, as maintained by `add_task`:
dict keys are unique, each node is stored under its own id, the entries
of the reverse-dependency map are duplicate-free, and the map holds
exactly the pairs derived from the stored dependency lists. -/
def WF (g : TaskGraph) : Prop :=
  (nodeKeys g).Nodup ∧
  (g.dependents.map (·.1)).Nodup ∧
  (∀ p ∈ g.nodes, p.2.task_id = p.1) ∧
  (∀ q ∈ g.dependents, q.2.Nodup) ∧
  (∀ q ∈ g.dependents, ∀ d ∈ q.2,
    ∃ p ∈ g.nodes, p.1 = d ∧ q.1 ∈ p.2.dependencies) ∧
  (∀ p ∈ g.nodes, ∀ dep ∈ p.2.dependencies, p.1 ∈ dependentsOf g dep)

instance (g : TaskGraph) : Decidable (WF g) := by
  unfold WF; infer_instance

/-- Lookup over an association list of nodes. -/
def lookupN (nodes : List (String × TaskNode)) (id : String) : Option TaskNode :=
  (nodes.find? (fun p => p.1 == id)).map (·.2)

theorem lookupNode_eq_lookupN (g : TaskGraph) (id : String) :
    lookupNode g id = lookupN g.nodes id := rfl

theorem lookupN_mapNodeAt (nodes : List (String × TaskNode)) (id : String)
    (f : TaskNode → TaskNode) (id' : String) :
    lookupN (mapNodeAt nodes id f) id' =
      if id' = id then (lookupN nodes id').map f else lookupN nodes id' := by
  induction nodes with
  | nil => simp [lookupN, mapNodeAt]
  | cons p rest ih =>
    rcases p with ⟨k, v⟩
    by_cases h1 : k = id <;> by_cases h2 : k = id' <;>
      simp_all [lookupN, mapNodeAt, List.find?_cons, beq_iff_eq] <;>
      simp_all [eq_comm]

theorem lookupNode_setState (g : TaskGraph) (id : String) (s : TaskState)
    (id' : String) :
    lookupNode (setState g id s) id' =
      if id' = id then (lookupNode g id').map (fun n => { n with state := s })
      else lookupNode g id' := by
  simpa [lookupNode_eq_lookupN, setState] using
    lookupN_mapNodeAt g.nodes id (fun n => { n with state := s }) id'

theorem dependents_setState (g : TaskGraph) (id : String) (s : TaskState) :
    (setState g id s).dependents = g.dependents := rfl

theorem dependentsOf_setState (g : TaskGraph) (id : String) (s : TaskState)
    (t : String) : dependentsOf (setState g id s) t = dependentsOf g t := rfl

theorem updateReadiness_lookup_ne (g : TaskGraph) (d id' : String)
    (h : id' ≠ d) :
    lookupNode (updateReadiness g d) id' = lookupNode g id' := by
  unfold updateReadiness
  cases hL : lookupNode g d with
  | none => rfl
  | some node =>
    by_cases hp : node.state = TaskState.pending <;>
      by_cases hm : depsMet g node <;>
      simp [hp, hm, lookupNode_setState, h]

theorem updateReadiness_lookup_self (g : TaskGraph) (d : String)
    (n : TaskNode) (hn : lookupNode g d = some n) :
    lookupNode (updateReadiness g d) d =
      if n.state = TaskState.pending ∧ depsMet g n then
        some { n with state := TaskState.ready }
      else some n := by
  unfold updateReadiness
  rw [hn]
  by_cases hp : n.state = TaskState.pending <;>
    by_cases hm : depsMet g n <;>
    simp [hp, hm, lookupNode_setState, hn]

theorem cascadeStep_lookup_ne (g : TaskGraph) (d id' : String) (h : id' ≠ d) :
    lookupNode (cascadeStep g d) id' = lookupNode g id' := by
  unfold cascadeStep
  by_cases hs : (lookupNode g d).isSome <;>
    simp [hs, updateReadiness_lookup_ne g d id' h]

theorem cascadeStep_lookup_self (g : TaskGraph) (d : String) (n : TaskNode)
    (hn : lookupNode g d = some n) :
    lookupNode (cascadeStep g d) d =
      if n.state = TaskState.pending ∧ depsMet g n then
        some { n with state := TaskState.ready }
      else some n := by
  unfold cascadeStep
  rw [hn]
  simpa using updateReadiness_lookup_self g d n hn

/-- Merged flag of a task id, the quantity `_update_readiness` reads
about each dependency. -/
def mergedB (g : TaskGraph) (id : String) : Bool :=
  match lookupNode g id with
  | none => false
  | some d => d.state = TaskState.merged

theorem depsMet_eq_all_mergedB (g : TaskGraph) (n : TaskNode) :
    depsMet g n = n.dependencies.all (fun dep => mergedB g dep) := rfl

theorem cascadeStep_mergedB (g : TaskGraph) (d id' : String) :
    mergedB (cascadeStep g d) id' = mergedB g id' := by
  by_cases h : id' = d
  · subst h
    cases hn : lookupNode g id' with
    | none =>
      unfold cascadeStep
      simp [hn]
    | some n =>
      have h2 := cascadeStep_lookup_self g id' n hn
      by_cases hc : n.state = TaskState.pending ∧ depsMet g n
      · have hp : n.state = TaskState.pending := hc.1
        simp only [mergedB, h2, if_pos hc, hn]
        simp [hp]
      · simp [mergedB, h2, if_neg hc, hn]
  · simp [mergedB, cascadeStep_lookup_ne g d id' h]

theorem cascadeStep_depsMet (g : TaskGraph) (d : String) (n : TaskNode) :
    depsMet (cascadeStep g d) n = depsMet g n := by
  simp [depsMet_eq_all_mergedB, cascadeStep_mergedB]

theorem cascade_preserves_nonpending (ds : List String) (g : TaskGraph)
    (D : String) (m : TaskNode) (hm : lookupNode g D = some m)
    (hs : m.state ≠ TaskState.pending) :
    lookupNode (ds.foldl cascadeStep g) D = some m := by
  induction ds generalizing g with
  | nil => simpa using hm
  | cons d rest ih =>
    by_cases h : D = d
    · subst h
      have h2 := cascadeStep_lookup_self g D m hm
      rw [if_neg (by simp [hs])] at h2
      exact ih (cascadeStep g D) h2
    · exact ih (cascadeStep g d) (by rw [cascadeStep_lookup_ne g d D h]; exact hm)

theorem cascade_sets_ready (ds : List String) (g : TaskGraph) (D : String)
    (n : TaskNode) (hn : lookupNode g D = some n)
    (hp : n.state = TaskState.pending) (hd : depsMet g n = true)
    (hmem : D ∈ ds) :
    lookupNode (ds.foldl cascadeStep g) D =
      some { n with state := TaskState.ready } := by
  induction ds generalizing g with
  | nil => cases hmem
  | cons d rest ih =>
    by_cases h : D = d
    · subst h
      have h2 := cascadeStep_lookup_self g D n hn
      rw [if_pos ⟨hp, hd⟩] at h2
      exact cascade_preserves_nonpending rest (cascadeStep g D) D _ h2 (by simp)
    · have hn' : lookupNode (cascadeStep g d) D = some n := by
        rw [cascadeStep_lookup_ne g d D h]; exact hn
      have hd' : depsMet (cascadeStep g d) n = true := by
        rw [cascadeStep_depsMet]; exact hd
      have hmem' : D ∈ rest := by
        cases hmem with
        | head => exact absurd rfl h
        | tail _ hq => exact hq
      exact ih (cascadeStep g d) hn' hd' hmem'

theorem cascade_keeps_pending (ds : List String) (g : TaskGraph) (D : String)
    (n : TaskNode) (hn : lookupNode g D = some n)
    (hp : n.state = TaskState.pending) (hd : depsMet g n = false) :
    lookupNode (ds.foldl cascadeStep g) D = some n := by
  induction ds generalizing g with
  | nil => simpa using hn
  | cons d rest ih =>
    have hd2 : depsMet (cascadeStep g d) n = false := by
      rw [cascadeStep_depsMet]; exact hd
    by_cases h : D = d
    · subst h
      have h2 := cascadeStep_lookup_self g D n hn
      rw [if_neg (by simp [hd])] at h2
      exact ih (cascadeStep g D) h2 hd2
    · have hn' : lookupNode (cascadeStep g d) D = some n := by
        rw [cascadeStep_lookup_ne g d D h]; exact hn
      exact ih (cascadeStep g d) hn' hd2

theorem mem_nodes_of_lookupNode (g : TaskGraph) (id : String) (n : TaskNode)
    (h : lookupNode g id = some n) : (id, n) ∈ g.nodes := by
  unfold lookupNode at h
  cases hf : g.nodes.find? (fun p => p.1 == id) with
  | none => rw [hf] at h; cases h
  | some p =>
    rw [hf] at h
    have hm := List.mem_of_find?_eq_some hf
    have hp := List.find?_some hf
    have : p.1 = id := by simpa [beq_iff_eq] using hp
    cases p with
    | mk k v =>
      have hv : v = n := by simpa using h
      have hk : k = id := by simpa using this
      rw [hv, hk] at hm
      exact hm

/-- C1: calling `update_state(T, merged)` sets, in that same call, every
direct dependent `D` of `T` (a task whose dependency list contains `T`)
to `ready` exactly when `D` is pending and every dependency of `D`
resolves to a merged task once `T` itself is merged; otherwise `D`
stays pending.  Conditions are evaluated in the graph with `T` already
set to merged, which is the state the cascade inspects. -/
theorem c1_cascading_readiness (g : TaskGraph) (hwf : WF g)
    (T : String) (nT : TaskNode) (hT : lookupNode g T = some nT)
    (D : String) (nD : TaskNode)
    (hD : lookupNode (setState g T TaskState.merged) D = some nD)
    (hdep : T ∈ nD.dependencies) (hpend : nD.state = TaskState.pending) :
    stateOf (updateState g T TaskState.merged).1 D =
      (if depsMet (setState g T TaskState.merged) nD then some TaskState.ready
       else some TaskState.pending) := by
  have hDne : D ≠ T := by
    intro h
    subst h
    rw [lookupNode_setState, if_pos rfl, hT] at hD
    have hnd : nD = { nT with state := TaskState.merged } := by
      simpa using hD.symm
    rw [hnd] at hpend
    simp at hpend
  have hDg : lookupNode g D = some nD := by
    rw [lookupNode_setState, if_neg hDne] at hD
    exact hD
  have hmemD : (D, nD) ∈ g.nodes := mem_nodes_of_lookupNode g D nD hDg
  have hDdep : D ∈ dependentsOf g T :=
    hwf.2.2.2.2.2 (D, nD) hmemD T hdep
  simp only [updateState, hT]
  rw [if_pos trivial]
  have hds : dependentsOf (setState g T TaskState.merged) T = dependentsOf g T :=
    dependentsOf_setState g T TaskState.merged T
  rw [hds]
  by_cases hdm : depsMet (setState g T TaskState.merged) nD
  · rw [if_pos hdm]
    have hr := cascade_sets_ready (dependentsOf g T)
      (setState g T TaskState.merged) D nD hD hpend hdm hDdep
    simp [stateOf, hr]
  · rw [if_neg hdm]
    have hfalse : depsMet (setState g T TaskState.merged) nD = false :=
      Bool.of_not_eq_true hdm
    have hr := cascade_keeps_pending (dependentsOf g T)
      (setState g T TaskState.merged) D nD hD hpend hfalse
    simp [stateOf, hr, hpend]

/-- C3 (amended): `update_state` and `assign_agent` perform no
transition-legality check at all: for any present task and any
requested state, `update_state` leaves the task in exactly the
requested state, and `assign_agent` unconditionally records the agent
and moves the task to running. -/
theorem c3_transitions_unchecked (g : TaskGraph) (id : String) (n : TaskNode)
    (h : lookupNode g id = some n) (s : TaskState) (aid : String) :
    stateOf (updateState g id s).1 id = some s ∧
    stateOf (assignAgent g id aid).1 id = some TaskState.running ∧
    (lookupNode (assignAgent g id aid).1 id).map (·.assigned_agent_id) =
      some (some aid) := by
  refine ⟨?_, ?_, ?_⟩
  · simp only [updateState, h]
    have hset : lookupNode (setState g id s) id = some { n with state := s } := by
      rw [lookupNode_setState, if_pos rfl, h]; rfl
    by_cases hs : s = TaskState.merged
    · subst hs
      simp only [if_pos rfl]
      have hr := cascade_preserves_nonpending
        (dependentsOf (setState g id TaskState.merged) id)
        (setState g id TaskState.merged) id _ hset (by simp)
      simp [stateOf, hr]
    · rw [if_neg hs]
      simp [stateOf, hset]
  · simp only [assignAgent, h, stateOf, lookupNode_eq_lookupN]
    rw [lookupN_mapNodeAt, if_pos rfl, ← lookupNode_eq_lookupN, h]
    rfl
  · simp only [assignAgent, h, lookupNode_eq_lookupN]
    rw [lookupN_mapNodeAt, if_pos rfl, ← lookupNode_eq_lookupN, h]
    rfl

/-- Concrete graph for the C3 counterexample: one task with an unknown
dependency, so it stays pending after insertion. -/
def gC3 : TaskGraph :=
  addTask TaskGraph.empty ⟨"t", "T", "core", "developer", 3, ["x"]⟩

/-- C3 counterexample: the claim requires the transition
pending→merged (outside the permitted list) to be rejected with the
state unchanged; the code accepts it without error and the task ends
up merged. -/
theorem c3_counterexample :
    stateOf gC3 "t" = some TaskState.pending ∧
    (updateState gC3 "t" TaskState.merged).2 = none ∧
    stateOf (updateState gC3 "t" TaskState.merged).1 "t" =
      some TaskState.merged := by
  decide

/-- Concrete two-task graph used by witnesses: `a` has no dependencies
(immediately ready), `b` depends on `a` (pending). -/
def gW1 : TaskGraph :=
  addTasks TaskGraph.empty
    [⟨"a", "A", "core", "developer", 1, []⟩,
     ⟨"b", "B", "core", "developer", 2, ["a"]⟩]

/-- Node stored for `a` in `gW1`. -/
def nW1a : TaskNode :=
  ⟨"a", "A", "core", "developer", 1, TaskState.ready, [], none⟩

/-- Node stored for `b` in `gW1`. -/
def nW1b : TaskNode :=
  ⟨"b", "B", "core", "developer", 2, TaskState.pending, ["a"], none⟩

/-- Witness instantiating `c1_cascading_readiness` on `gW1`. -/
theorem c1_witness :
    (WF gW1 ∧ lookupNode gW1 "a" = some nW1a ∧
     lookupNode (setState gW1 "a" TaskState.merged) "b" = some nW1b ∧
     "a" ∈ nW1b.dependencies ∧ nW1b.state = TaskState.pending) ∧
    stateOf (updateState gW1 "a" TaskState.merged).1 "b" =
      (if depsMet (setState gW1 "a" TaskState.merged) nW1b then
        some TaskState.ready
       else some TaskState.pending) :=
  ⟨⟨by decide, by decide, by decide, by decide, by decide⟩,
    c1_cascading_readiness gW1 (by decide) "a" nW1a (by decide) "b" nW1b
      (by decide) (by decide) (by decide)⟩

/-- Witness instantiating `c3_transitions_unchecked` on `gW1`. -/
theorem c3_witness :
    (lookupNode gW1 "a" = some nW1a) ∧
    (stateOf (updateState gW1 "a" TaskState.failed).1 "a" =
        some TaskState.failed ∧
     stateOf (assignAgent gW1 "a" "agent-1").1 "a" = some TaskState.running ∧
     (lookupNode (assignAgent gW1 "a" "agent-1").1 "a").map
        (·.assigned_agent_id) = some (some "agent-1")) :=
  ⟨by decide,
    c3_transitions_unchecked gW1 "a" nW1a (by decide) TaskState.failed "agent-1"⟩

/-- C10: `update_state` on an id not in the graph raises `KeyError`
before any mutation, so the returned graph is exactly the input graph
(every task's state unchanged, no readiness cascade), while `get_task`
on the same id returns `None` without raising. -/
theorem c10_unknown_task (g : TaskGraph) (id : String) (s : TaskState)
    (h : lookupNode g id = none) :
    updateState g id s = (g, some ("Unknown task: " ++ id)) ∧
    getTask g id = none := by
  constructor
  · simp [updateState, h]
  · simpa [getTask] using h

/-- Witness instantiating `c10_unknown_task` on `gW1` and an absent id. -/
theorem c10_witness :
    (lookupNode gW1 "zz" = none) ∧
    (updateState gW1 "zz" TaskState.merged =
      (gW1, some ("Unknown task: " ++ "zz")) ∧ getTask gW1 "zz" = none) :=
  ⟨by decide, c10_unknown_task gW1 "zz" TaskState.merged (by decide)⟩

/-- Per-agent token usage, from `TokenUsage` in `llm/client.py`.  The
float cost is modelled as a rational. -/
structure TokenUsage where
  input_tokens : Nat
  output_tokens : Nat
  total_cost_usd : ℚ
deriving DecidableEq, Repr

/-- Property `TokenUsage.estimated_cost_usd`. -/
def TokenUsage.estimated_cost_usd (u : TokenUsage) : ℚ := u.total_cost_usd

/-- Global cost tracker, from `CostTracker` in `llm/client.py`. -/
structure CostTracker where
  max_cost_usd : ℚ
  warn_at_usd : ℚ
  agent_usage : List (String × TokenUsage)
  warned : Bool
deriving DecidableEq, Repr

/-- Property `CostTracker.total_cost_usd`: sum of the per-agent
estimated costs. -/
def totalCostUsd (c : CostTracker) : ℚ :=
  (c.agent_usage.map (fun p => p.2.estimated_cost_usd)).sum

/-- `CostTracker.check_budget`: raise `BudgetExceededError` when the
total reaches the hard cap, otherwise return, setting the one-shot
warning flag when the soft cap is reached for the first time. -/
def checkBudget (c : CostTracker) : Except String CostTracker :=
  let total := totalCostUsd c
  if c.max_cost_usd ≤ total then
    Except.error "BudgetExceededError"
  else if c.warned = false ∧ c.warn_at_usd ≤ total then
    Except.ok { c with warned := true }
  else
    Except.ok c

/-- C5: `check_budget` raises exactly when the aggregate total cost,
which is the sum of the per-agent totals, has reached the hard cap;
strictly below the cap it returns normally, at most flipping the
one-shot warning flag and never touching the recorded usage or the
caps. -/
theorem c5_budget_gate (c : CostTracker) :
    (totalCostUsd c = (c.agent_usage.map (fun p => p.2.total_cost_usd)).sum) ∧
    ((∃ e, checkBudget c = Except.error e) ↔ c.max_cost_usd ≤ totalCostUsd c) ∧
    (totalCostUsd c < c.max_cost_usd →
      ∃ c', checkBudget c = Except.ok c' ∧
        c'.agent_usage = c.agent_usage ∧
        c'.max_cost_usd = c.max_cost_usd ∧
        c'.warn_at_usd = c.warn_at_usd) := by
  refine ⟨rfl, ?_, ?_⟩
  · constructor
    · rintro ⟨e, he⟩
      by_contra hlt
      unfold checkBudget at he
      rw [if_neg hlt] at he
      by_cases hw : c.warned = false ∧ c.warn_at_usd ≤ totalCostUsd c <;>
        simp [hw] at he
    · intro hge
      exact ⟨"BudgetExceededError", by unfold checkBudget; rw [if_pos hge]⟩
  · intro hlt
    have hn : ¬ c.max_cost_usd ≤ totalCostUsd c := not_le.mpr hlt
    unfold checkBudget
    rw [if_neg hn]
    by_cases hw : c.warned = false ∧ c.warn_at_usd ≤ totalCostUsd c
    · exact ⟨{ c with warned := true }, by rw [if_pos hw], rfl, rfl, rfl⟩
    · exact ⟨c, by rw [if_neg hw], rfl, rfl, rfl⟩

/-- Concrete tracker below its hard cap, for the C5 witness. -/
def cW5 : CostTracker :=
  { max_cost_usd := 50, warn_at_usd := 25,
    agent_usage := [("dev", ⟨100, 200, 10⟩), ("rev", ⟨50, 80, 5⟩)],
    warned := false }

/-- Witness instantiating `c5_budget_gate` on `cW5`. -/
theorem c5_witness :
    (totalCostUsd cW5 < cW5.max_cost_usd) ∧
    (∃ c', checkBudget cW5 = Except.ok c' ∧
      c'.agent_usage = cW5.agent_usage ∧
      c'.max_cost_usd = cW5.max_cost_usd ∧
      c'.warn_at_usd = cW5.warn_at_usd) :=
  have hlt : totalCostUsd cW5 < cW5.max_cost_usd := by
    norm_num [totalCostUsd, cW5, TokenUsage.estimated_cost_usd]
  ⟨hlt, (c5_budget_gate cW5).2.2 hlt⟩

/-- A tool call extracted from a model reply, from `ToolCall` in
`llm/response.py`; the JSON arguments are kept opaque. -/
structure ToolCallR where
  id : String
  name : String
  arguments : String
deriving DecidableEq, Repr

/-- A provider-agnostic model reply, from `LLMResponse`: text plus the
list of tool calls (empty when the model stops calling tools). -/
structure ReplyR where
  text : String
  tool_calls : List ToolCallR
deriving DecidableEq, Repr

/-- Chat messages accumulated by the tool-use loop of
`LLMClient.send_with_tools`. -/
inductive ChatMsg where
  | user (content : String)
  | assistant (content : String) (tool_calls : List ToolCallR)
  | tool (tool_call_id : String) (content : String)
deriving DecidableEq, Repr

/-- One turn of the loop body in `LLMClient.send_with_tools`, iterated
over `range(max_turns)`.  `replies turn` is the model's reply to the
`turn`-th request and `executor` is the pure view of the tool executor.
The result records the message history, the number of LLM requests
issued, and which tool calls were handed to the executor (tagged with
the turn of the reply they came from). -/
def sendWithToolsGo (replies : Nat → ReplyR)
    (executor : String → String → String) :
    Nat → Nat → List ChatMsg → Nat → List (Nat × ToolCallR) →
    List ChatMsg × Nat × List (Nat × ToolCallR)
  | 0, _, messages, requests, execs => (messages, requests, execs)
  | fuel + 1, turn, messages, requests, execs =>
    let response := replies turn
    let messages' :=
      messages ++ [ChatMsg.assistant response.text response.tool_calls]
    if response.tool_calls = [] then (messages', requests + 1, execs)
    else
      let toolMsgs := response.tool_calls.map
        (fun tc => ChatMsg.tool tc.id (executor tc.name tc.arguments))
      sendWithToolsGo replies executor fuel (turn + 1) (messages' ++ toolMsgs)
        (requests + 1)
        (execs ++ response.tool_calls.map (fun tc => (turn, tc)))

/-- `LLMClient.send_with_tools`: run the loop from turn 0 with the
given starting history. -/
def sendWithTools (replies : Nat → ReplyR)
    (executor : String → String → String) (maxTurns : Nat)
    (messages : List ChatMsg) : List ChatMsg × Nat × List (Nat × ToolCallR) :=
  sendWithToolsGo replies executor maxTurns 0 messages 0 []

theorem sendWithToolsGo_requests_le (replies : Nat → ReplyR)
    (executor : String → String → String) :
    ∀ fuel turn messages requests execs,
      (sendWithToolsGo replies executor fuel turn messages requests execs).2.1 ≤
        requests + fuel := by
  intro fuel
  induction fuel with
  | zero => intro turn messages requests execs; simp [sendWithToolsGo]
  | succ f ih =>
    intro turn messages requests execs
    unfold sendWithToolsGo
    by_cases h : (replies turn).tool_calls = []
    · rw [if_pos h]
      show requests + 1 ≤ requests + (f + 1)
      omega
    · rw [if_neg h]
      refine le_trans (ih _ _ _ _) ?_
      omega

theorem sendWithToolsGo_stops (replies : Nat → ReplyR)
    (executor : String → String → String) :
    ∀ k fuel turn messages requests execs, k < fuel →
      (∀ j, j < k → (replies (turn + j)).tool_calls ≠ []) →
      (replies (turn + k)).tool_calls = [] →
      (sendWithToolsGo replies executor fuel turn messages requests execs).2.1 =
        requests + k + 1 ∧
      (∀ e ∈ (sendWithToolsGo replies executor fuel turn messages
          requests execs).2.2,
        e ∈ execs ∨ (turn ≤ e.1 ∧ e.1 < turn + k)) := by
  intro k
  induction k with
  | zero =>
    intro fuel turn messages requests execs hk _ hstop
    match fuel, hk with
    | f + 1, _ =>
      rw [Nat.add_zero] at hstop
      unfold sendWithToolsGo
      rw [if_pos hstop]
      exact ⟨rfl, fun e he => Or.inl he⟩
  | succ k ih =>
    intro fuel turn messages requests execs hk hne hstop
    match fuel, hk with
    | f + 1, hk =>
      have h0 : (replies turn).tool_calls ≠ [] := by
        have := hne 0 (Nat.succ_pos k)
        simpa using this
      unfold sendWithToolsGo
      rw [if_neg h0]
      have hne' : ∀ j, j < k → (replies (turn + 1 + j)).tool_calls ≠ [] := by
        intro j hj
        have := hne (j + 1) (by omega)
        have harr : turn + (j + 1) = turn + 1 + j := by omega
        rwa [harr] at this
      have hstop' : (replies (turn + 1 + k)).tool_calls = [] := by
        have harr : turn + (k + 1) = turn + 1 + k := by omega
        rwa [harr] at hstop
      obtain ⟨hreq, hex⟩ := ih f (turn + 1) _ (requests + 1)
        (execs ++ (replies turn).tool_calls.map (fun tc => (turn, tc)))
        (by omega) hne' hstop'
      constructor
      · rw [hreq]
        omega
      intro e he
      rcases hex e he with h | h
      · rcases List.mem_append.mp h with h2 | h2
        · exact Or.inl h2
        · rcases List.mem_map.mp h2 with ⟨tc, _, htc⟩
          right
          rw [← htc]
          exact ⟨Nat.le_refl _, by omega⟩
      · right
        exact ⟨by omega, by omega⟩

/-- C6: for `max_turns ≥ 1` the tool-use loop issues at most
`max_turns` LLM requests; and if the first reply without tool calls is
reply `k` with `k < max_turns`, the loop issues exactly `k + 1`
requests and every tool call handed to the executor comes from an
earlier reply (never from reply `k`). -/
theorem c6_toolloop_termination (replies : Nat → ReplyR)
    (executor : String → String → String) (maxTurns : Nat)
    (messages : List ChatMsg) (hmt : 1 ≤ maxTurns) :
    (sendWithTools replies executor maxTurns messages).2.1 ≤ maxTurns ∧
    (∀ k, k < maxTurns →
      (∀ j, j < k → (replies j).tool_calls ≠ []) →
      (replies k).tool_calls = [] →
      (sendWithTools replies executor maxTurns messages).2.1 = k + 1 ∧
      (∀ e ∈ (sendWithTools replies executor maxTurns messages).2.2,
        e.1 < k)) := by
  constructor
  · simpa using sendWithToolsGo_requests_le replies executor maxTurns 0 messages 0 []
  · intro k hk hne hstop
    obtain ⟨hreq, hex⟩ := sendWithToolsGo_stops replies executor k maxTurns 0
      messages 0 [] hk (by simpa using hne) (by simpa using hstop)
    refine ⟨by simpa [sendWithTools] using hreq, ?_⟩
    intro e he
    rcases hex e (by simpa [sendWithTools] using he) with h | h
    · cases h
    · simpa using h.2

/-- Reply sequence for the C6 witness: one round of tool calls, then a
plain text reply. -/
def repliesW6 : Nat → ReplyR := fun turn =>
  if turn = 0 then ⟨"calling", [⟨"call-1", "read_file", "args"⟩]⟩
  else ⟨"done", []⟩

/-- Witness instantiating `c6_toolloop_termination` with 20 max turns
and a run that stops at reply 1. -/
theorem c6_witness :
    (1 ≤ 20 ∧ 1 < 20 ∧ (∀ j, j < 1 → (repliesW6 j).tool_calls ≠ []) ∧
      (repliesW6 1).tool_calls = []) ∧
    ((sendWithTools repliesW6 (fun _ _ => "ok") 20 []).2.1 ≤ 20 ∧
     (sendWithTools repliesW6 (fun _ _ => "ok") 20 []).2.1 = 1 + 1 ∧
     (∀ e ∈ (sendWithTools repliesW6 (fun _ _ => "ok") 20 []).2.2, e.1 < 1)) := by
  have h := c6_toolloop_termination repliesW6 (fun _ _ => "ok") 20 [] (by decide)
  have h2 := h.2 1 (by decide) (by decide) (by decide)
  exact ⟨⟨by decide, by decide, by decide, by decide⟩, ⟨h.1, h2.1, h2.2⟩⟩

/-- ASCII fragment of the regex class `\s`, the whitespace characters
occurring in serial output. -/
def isSpaceC (c : Char) : Bool :=
  c = ' ' || c = '\t' || c = '\n' || c = '\r' || c = '\x0b' || c = '\x0c'

/-- One parsed test line, from `TestCase` in
`validation/test_validator.py` (the unused duration field is omitted). -/
structure TestCase where
  name : String
  passed : Bool
  message : String
deriving DecidableEq, Repr

/-- Parse result of a whole run, from `TestResult` (durations omitted). -/
structure TestResult where
  success : Bool
  total : Nat
  passed : Nat
  failed : Nat
  tests : List TestCase
  raw_output : String
  boot_success : Bool
deriving DecidableEq, Repr

/-- Capture group 3 of the pattern, `(?:\s*-\s*(.*))?`, applied to the
text following `PASS` or `FAIL`: optionally skip whitespace, a dash and
more whitespace, and capture the rest of the line; when the optional
group does not match, the message is the empty string (`message or ""`
in the source). -/
def msgOf (rest : List Char) : String :=
  match rest.dropWhile isSpaceC with
  | '-' :: s => ⟨s.dropWhile isSpaceC⟩
  | _ => ""

/-- Match of the pattern `\[TEST\]\s+(\S+):\s+(PASS|FAIL)(?:\s*-\s*(.*))?`
anchored at the start of `cs`, after the literal `[TEST]` has been
consumed.  Backtracking note: the regex lets `(\S+):` end at any colon
of the maximal non-whitespace run, tried rightmost first, but every
split before the end of the run is followed by a non-whitespace
character which makes the subsequent `\s+` fail, so the only viable
split puts the colon at the end of the run with a nonempty name before
it. -/
def matchAfterTest (r1 : List Char) : Option TestCase :=
  if r1.takeWhile isSpaceC = [] then none
  else
    let r2 := r1.dropWhile isSpaceC
    let run := r2.takeWhile (fun c => !isSpaceC c)
    if 2 ≤ run.length ∧ run.getLast? = some ':' then
      let name := run.dropLast
      let r3 := r2.drop run.length
      if r3.takeWhile isSpaceC = [] then none
      else
        let r4 := r3.dropWhile isSpaceC
        if "PASS".data.isPrefixOf r4 then
          some { name := ⟨name⟩, passed := true, message := msgOf (r4.drop 4) }
        else if "FAIL".data.isPrefixOf r4 then
          some { name := ⟨name⟩, passed := false, message := msgOf (r4.drop 4) }
        else none
    else none

/-- Match of the test pattern anchored at the start of `cs`:
the literal `[TEST]`, then the rest of the pattern. -/
def matchTestAt : List Char → Option TestCase
  | '[' :: 'T' :: 'E' :: 'S' :: 'T' :: ']' :: rest => matchAfterTest rest
  | _ => none

/-- `pattern.search(line)`: try the anchored match at every start
position, leftmost first. -/
def parseTestLine (cs : List Char) : Option TestCase :=
  match matchTestAt cs with
  | some tc => some tc
  | none =>
    match cs with
    | [] => none
    | _ :: rest => parseTestLine rest

/-- Python `str.splitlines` on its common line terminators
(`\n`, `\r\n`, `\r`); a trailing terminator produces no empty final
line and the empty string has no lines. -/
def splitLinesAux : List Char → List Char → List (List Char)
  | [], acc => [acc.reverse]
  | '\r' :: '\n' :: rest, acc =>
    acc.reverse :: (match rest with | [] => [] | _ => splitLinesAux rest [])
  | '\n' :: rest, acc =>
    acc.reverse :: (match rest with | [] => [] | _ => splitLinesAux rest [])
  | '\r' :: rest, acc =>
    acc.reverse :: (match rest with | [] => [] | _ => splitLinesAux rest [])
  | c :: rest, acc => splitLinesAux rest (c :: acc)

/-- Split an output string into lines, as `output.splitlines()`. -/
def splitLinesPy (cs : List Char) : List (List Char) :=
  match cs with
  | [] => []
  | _ => splitLinesAux cs []

/-- `TestValidator._parse_test_output`: collect one `TestCase` per line
on which the pattern matches, in line order. -/
def parseTestOutput (output : List Char) : List TestCase :=
  (splitLinesPy output).filterMap parseTestLine

/-- Substring membership, Python's `in` on strings. -/
def containsSub : List Char → List Char → Bool
  | hay, sub =>
    if sub.isPrefixOf hay then true
    else
      match hay with
      | [] => false
      | _ :: rest => containsSub rest sub

/-- Boot marker check of `TestValidator.run_tests`:
`"[BOOT] OK" in output or "kernel initialized" in output.lower()`. -/
def bootOkOf (output : List Char) : Bool :=
  containsSub output "[BOOT] OK".data ||
    containsSub (output.map Char.toLower) "kernel initialized".data

/-- Result assembly of `TestValidator.run_tests` from the captured
serial output (the QEMU launch itself is I/O and outside the model). -/
def runTestsFromOutput (output : List Char) : TestResult :=
  let tests := parseTestOutput output
  let boot_ok := bootOkOf output
  let passed := tests.countP (fun t => t.passed)
  let failed := tests.countP (fun t => !t.passed)
  { success := failed == 0 && (boot_ok || tests.isEmpty),
    total := tests.length, passed := passed, failed := failed,
    tests := tests, raw_output := ⟨output⟩, boot_success := boot_ok }

theorem takeWhile_append_all {p : Char → Bool} :
    ∀ (xs ys : List Char), (∀ x ∈ xs, p x = true) →
      (xs ++ ys).takeWhile p = xs ++ ys.takeWhile p := by
  intro xs ys h
  induction xs with
  | nil => simp
  | cons x xs ih =>
    have hx : p x = true := h x (List.mem_cons_self x xs)
    simp [List.takeWhile_cons, hx,
      ih (fun a ha => h a (List.mem_cons_of_mem x ha))]

theorem dropWhile_append_all {p : Char → Bool} :
    ∀ (xs ys : List Char), (∀ x ∈ xs, p x = true) →
      (xs ++ ys).dropWhile p = ys.dropWhile p := by
  intro xs ys h
  induction xs with
  | nil => simp
  | cons x xs ih =>
    have hx : p x = true := h x (List.mem_cons_self x xs)
    simp only [List.cons_append, List.dropWhile_cons, hx]
    exact ih (fun a ha => h a (List.mem_cons_of_mem x ha))

theorem takeWhile_nonspace_head {p : Char → Bool} (c : Char) (cs : List Char)
    (h : p c = false) : (c :: cs).takeWhile p = [] := by
  simp [List.takeWhile_cons, h]

theorem matchAfterTest_core (nd S : List Char) (hnd : nd ≠ [])
    (ha : ∀ c ∈ nd, isSpaceC c = false)
    (hS : ∃ c S', S = c :: S' ∧ isSpaceC c = false) :
    matchAfterTest (' ' :: (nd ++ ':' :: ' ' :: S)) =
      (if "PASS".data.isPrefixOf S then
        some { name := (⟨nd⟩ : String), passed := true, message := msgOf (S.drop 4) }
       else if "FAIL".data.isPrefixOf S then
        some { name := (⟨nd⟩ : String), passed := false, message := msgOf (S.drop 4) }
       else none) := by
  obtain ⟨c0, nd0, hc⟩ := List.exists_cons_of_ne_nil hnd
  obtain ⟨cS, S0, hcS, hcSns⟩ := hS
  have hc0 : isSpaceC c0 = false := ha c0 (by rw [hc]; exact List.mem_cons_self _ _)
  have hZ : nd ++ ':' :: ' ' :: S = (nd ++ [':']) ++ (' ' :: S) := by
    rw [List.append_assoc]; rfl
  have hallrun : ∀ c ∈ nd ++ [':'], (fun c => !isSpaceC c) c = true := by
    intro c hcmem
    rcases List.mem_append.mp hcmem with h | h
    · simp [ha c h]
    · simp at h
      subst h
      rfl
  have h1 : (' ' :: (nd ++ ':' :: ' ' :: S)).takeWhile isSpaceC = [' '] := by
    rw [List.takeWhile_cons]
    have : isSpaceC ' ' = true := rfl
    rw [if_pos this, hc]
    rw [List.cons_append, takeWhile_nonspace_head c0 _ hc0]
  have h2 : (' ' :: (nd ++ ':' :: ' ' :: S)).dropWhile isSpaceC =
      nd ++ ':' :: ' ' :: S := by
    rw [List.dropWhile_cons]
    have ht : isSpaceC ' ' = true := rfl
    rw [if_pos ht, hc, List.cons_append, List.dropWhile_cons, if_neg (by simp [hc0])]
  have hrun : (nd ++ ':' :: ' ' :: S).takeWhile (fun c => !isSpaceC c) =
      nd ++ [':'] := by
    rw [hZ, takeWhile_append_all _ _ hallrun]
    rw [takeWhile_nonspace_head ' ' _ (by rfl)]
    simp
  have hlen : 2 ≤ (nd ++ [':']).length := by
    rw [hc]; simp
  have hlast : (nd ++ [':']).getLast? = some ':' := List.getLast?_concat nd
  have hdrop : (nd ++ ':' :: ' ' :: S).drop (nd ++ [':']).length = ' ' :: S := by
    rw [hZ, List.drop_left]
  have h3 : (' ' :: S).takeWhile isSpaceC = [' '] := by
    rw [List.takeWhile_cons, if_pos (by rfl), hcS,
      takeWhile_nonspace_head cS _ hcSns]
  have h4 : (' ' :: S).dropWhile isSpaceC = S := by
    rw [List.dropWhile_cons, if_pos (by rfl), hcS, List.dropWhile_cons,
      if_neg (by simp [hcSns]), ← hcS]
  simp only [matchAfterTest]
  rw [h1]
  rw [if_neg (by simp)]
  rw [h2, hrun]
  rw [if_pos ⟨hlen, hlast⟩]
  rw [hdrop, h3]
  rw [if_neg (by simp)]
  rw [h4, List.dropLast_concat]

/-- C8: on serial-output lines of the documented shapes the parser
produces exactly one test case per line — a passing one for
`[TEST] name: PASS`, a failing one carrying the reason for
`[TEST] name: FAIL - reason` — while output consisting of just the
boot marker `[BOOT] OK` parses to zero tests with boot success (and an
overall success); and for arbitrary output the success flag is
precisely "no failing test, and boot succeeded or no test parsed". -/
theorem c8_test_output_parsing (name reason : String) (hname : name.data ≠ [])
    (hns : ∀ c ∈ name.data, isSpaceC c = false)
    (hrs : ∀ c, reason.data.head? = some c → isSpaceC c = false) :
    parseTestLine ("[TEST] " ++ name ++ ": PASS").data =
      some { name := name, passed := true, message := "" } ∧
    parseTestLine ("[TEST] " ++ name ++ ": FAIL - " ++ reason).data =
      some { name := name, passed := false, message := reason } ∧
    parseTestOutput "[BOOT] OK".data = [] ∧
    (runTestsFromOutput "[BOOT] OK".data).boot_success = true ∧
    (runTestsFromOutput "[BOOT] OK".data).success = true ∧
    (∀ output : List Char, (runTestsFromOutput output).success =
      ((parseTestOutput output).all (fun t => t.passed) &&
        (bootOkOf output || (parseTestOutput output).isEmpty))) := by
  have hline1 : ("[TEST] " ++ name ++ ": PASS").data =
      '[' :: 'T' :: 'E' :: 'S' :: 'T' :: ']' ::
        (' ' :: (name.data ++ ':' :: ' ' :: "PASS".data)) := by
    rw [String.data_append, String.data_append]
    rfl
  have hline2 : ("[TEST] " ++ name ++ ": FAIL - " ++ reason).data =
      '[' :: 'T' :: 'E' :: 'S' :: 'T' :: ']' ::
        (' ' :: (name.data ++ ':' :: ' ' :: ("FAIL - ".data ++ reason.data))) := by
    rw [String.data_append, String.data_append, String.data_append]
    simp only [List.append_assoc]
    rfl
  refine ⟨?_, ?_, by decide, by decide, by decide, ?_⟩
  · rw [hline1]
    have hm := matchAfterTest_core name.data "PASS".data hname hns
      ⟨'P', "ASS".data, rfl, rfl⟩
    rw [if_pos (by rfl)] at hm
    simp only [parseTestLine, matchTestAt, hm]
    rfl
  · rw [hline2]
    have hm := matchAfterTest_core name.data ("FAIL - ".data ++ reason.data)
      hname hns ⟨'F', "AIL - ".data ++ reason.data, rfl, rfl⟩
    rw [if_neg (by intro h; exact absurd h (by simp [List.isPrefixOf]))] at hm
    rw [if_pos (by rfl)] at hm
    have hmsg : msgOf ((("FAIL - ".data ++ reason.data)).drop 4) = reason := by
      show msgOf (' ' :: '-' :: ' ' :: reason.data) = reason
      show (⟨(' ' :: reason.data).dropWhile isSpaceC⟩ : String) = reason
      rw [List.dropWhile_cons, if_pos (by rfl)]
      cases hr : reason.data with
      | nil => cases reason with
        | mk d => simp at hr; rw [hr]; rfl
      | cons c rest =>
        rw [List.dropWhile_cons, if_neg (by simp [hrs c (by rw [hr]; rfl)]), ← hr]
    rw [hmsg] at hm
    simp only [parseTestLine, matchTestAt, hm]
  · intro output
    show ((parseTestOutput output).countP (fun t => !t.passed) == 0 &&
        (bootOkOf output || (parseTestOutput output).isEmpty)) = _
    congr 1
    induction parseTestOutput output with
    | nil => rfl
    | cons t ts ih =>
      cases hp : t.passed <;>
        simp_all [List.countP_cons, hp, List.all_cons]

/-- Witness instantiating `c8_test_output_parsing` on the test name
`mm_alloc` and the failure reason `page fault`. -/
theorem c8_witness :
    ("mm_alloc".data ≠ [] ∧ (∀ c ∈ "mm_alloc".data, isSpaceC c = false) ∧
      (∀ c, "page fault".data.head? = some c → isSpaceC c = false)) ∧
    (parseTestLine ("[TEST] " ++ "mm_alloc" ++ ": PASS").data =
      some { name := "mm_alloc", passed := true, message := "" } ∧
     parseTestLine ("[TEST] " ++ "mm_alloc" ++ ": FAIL - " ++ "page fault").data =
      some { name := "mm_alloc", passed := false, message := "page fault" } ∧
     parseTestOutput "[BOOT] OK".data = [] ∧
     (runTestsFromOutput "[BOOT] OK".data).boot_success = true ∧
     (runTestsFromOutput "[BOOT] OK".data).success = true ∧
     (∀ output : List Char, (runTestsFromOutput output).success =
       ((parseTestOutput output).all (fun t => t.passed) &&
         (bootOkOf output || (parseTestOutput output).isEmpty)))) :=
  ⟨⟨by decide, by decide, by decide⟩,
    c8_test_output_parsing "mm_alloc" "page fault" (by decide) (by decide) (by decide)⟩

/-- Result of `BuildValidator.build` as consumed by the composition
validator: success flag and captured stderr. -/
structure BuildResult where
  success : Bool
  stderr : String
deriving DecidableEq, Repr

/-- A detected composition problem, from `CompositionIssue` in
`validation/composition_validator.py`. -/
structure CompositionIssue where
  subsystems : List String
  severity : String
  description : String
  evidence : String
deriving DecidableEq, Repr

/-- Outcome of `CompositionValidator.validate`, from
`CompositionResult` (the summary string is omitted). -/
structure CompositionResult where
  success : Bool
  issues : List CompositionIssue
  build_ok : Bool
  unit_tests_ok : Bool
  integration_tests_ok : Bool
deriving DecidableEq, Repr

/-- Python `subsystems or ["unknown"]` (both `None` and the empty list
are falsy). -/
def orUnknown (subsystems : Option (List String)) : List String :=
  match subsystems with
  | none => ["unknown"]
  | some [] => ["unknown"]
  | some l => l

/-- The critical issue emitted when unit tests pass but integration
tests fail (evidence is the integration output truncated to 500
characters). -/
def mkCriticalIssue (subs : List String) (intR : TestResult) :
    CompositionIssue :=
  { subsystems := subs, severity := "critical",
    description := "Frankenstein effect detected: unit tests pass but integration tests fail. Subsystems work individually but fail when composed.",
    evidence := ⟨intR.raw_output.data.take 500⟩ }

/-- The warning issue emitted for a test passing in isolation but
failing in integration. -/
def mkWarningIssue (subs : List String) (t : TestCase) : CompositionIssue :=
  { subsystems := subs, severity := "warning",
    description := "Test '" ++ t.name ++ "' passes in isolation but fails in integration",
    evidence := t.message }

/-- `CompositionValidator.validate`, from the three validator results
(the build and the two QEMU test runs are performed by awaited calls;
the analysis itself is pure). -/
def compositionValidate (build : BuildResult) (unitR intR : TestResult)
    (subsystems : Option (List String)) : CompositionResult :=
  if build.success = false then
    { success := false, issues := [], build_ok := false,
      unit_tests_ok := false, integration_tests_ok := false }
  else
    let issues1 : List CompositionIssue :=
      if unitR.success = true ∧ intR.success = false then
        [mkCriticalIssue (orUnknown subsystems) intR]
      else []
    let unit_names := (unitR.tests.filter (fun t => t.passed)).map (fun t => t.name)
    let issues2 : List CompositionIssue :=
      if unitR.tests ≠ [] ∧ intR.tests ≠ [] then
        (intR.tests.filter
          (fun t => unit_names.contains t.name && !t.passed)).map
          (mkWarningIssue (orUnknown subsystems))
      else []
    let issues := issues1 ++ issues2
    { success := !(issues.any (fun i => i.severity == "critical")),
      issues := issues, build_ok := true,
      unit_tests_ok := unitR.success, integration_tests_ok := intR.success }

theorem countP_critical_warnings (subs : List String) (ts : List TestCase) :
    (ts.map (mkWarningIssue subs)).countP
      (fun i => i.severity == "critical") = 0 := by
  induction ts with
  | nil => rfl
  | cons t ts ih => simp [List.countP_cons, ih, mkWarningIssue]

theorem filter_warning_of_warnings (subs : List String) (ts : List TestCase) :
    (ts.map (mkWarningIssue subs)).filter
      (fun i => i.severity == "warning") = ts.map (mkWarningIssue subs) := by
  induction ts with
  | nil => rfl
  | cons t ts ih => simp [List.filter_cons, ih, mkWarningIssue]

theorem not_any_iff_countP_zero (l : List CompositionIssue) :
    (!(l.any (fun i => i.severity == "critical"))) = true ↔
      l.countP (fun i => i.severity == "critical") = 0 := by
  rw [Bool.not_eq_true', List.any_eq_false, List.countP_eq_zero]

/-- C9: when the build fails, `validate` returns immediately with
`success = false` and an empty issue list; when the build succeeds:
a passing unit run plus a failing integration run emits exactly one
critical issue; the warning issues are exactly one per integration
test that fails there while a test of the same name passes in the unit
run; and the success flag holds iff no critical issue was emitted. -/
theorem c9_composition_validator (build : BuildResult)
    (unitR intR : TestResult) (subs : Option (List String)) :
    (build.success = false →
      compositionValidate build unitR intR subs =
        { success := false, issues := [], build_ok := false,
          unit_tests_ok := false, integration_tests_ok := false }) ∧
    (build.success = true →
      (unitR.success = true → intR.success = false →
        (compositionValidate build unitR intR subs).issues.countP
          (fun i => i.severity == "critical") = 1) ∧
      ((compositionValidate build unitR intR subs).issues.filter
          (fun i => i.severity == "warning") =
        (intR.tests.filter (fun t =>
          ((unitR.tests.filter (fun u => u.passed)).map
            (fun u => u.name)).contains t.name && !t.passed)).map
          (mkWarningIssue (orUnknown subs))) ∧
      ((compositionValidate build unitR intR subs).success = true ↔
        (compositionValidate build unitR intR subs).issues.countP
          (fun i => i.severity == "critical") = 0)) := by
  constructor
  · intro hb
    simp [compositionValidate, hb]
  · intro hb
    have hb' : ¬ (build.success = false) := by simp [hb]
    refine ⟨?_, ?_, ?_⟩
    · intro hu hi
      simp only [compositionValidate, if_neg hb']
      rw [if_pos ⟨hu, hi⟩]
      by_cases hg : unitR.tests ≠ [] ∧ intR.tests ≠ []
      · rw [if_pos hg]
        simp [List.countP_append, List.countP_cons, mkCriticalIssue,
          countP_critical_warnings]
        intros
        simp [mkWarningIssue]
      · rw [if_neg hg]
        simp [List.countP_cons, mkCriticalIssue]
    · simp only [compositionValidate, if_neg hb']
      by_cases hg : unitR.tests ≠ [] ∧ intR.tests ≠ []
      · rw [if_pos hg]
        by_cases hc : unitR.success = true ∧ intR.success = false
        · rw [if_pos hc]
          simp [List.filter_append, List.filter_cons, mkCriticalIssue,
            filter_warning_of_warnings]
        · rw [if_neg hc]
          simp [List.filter_append, filter_warning_of_warnings]
      · rw [if_neg hg]
        have hrhs : intR.tests.filter (fun t =>
            ((unitR.tests.filter (fun u => u.passed)).map
              (fun u => u.name)).contains t.name && !t.passed) = [] := by
          rcases Decidable.not_and_iff_or_not.mp hg with h | h
          · have hu : unitR.tests = [] := by
              by_contra hne; exact h hne
            rw [hu]
            simp
          · have hi : intR.tests = [] := by
              by_contra hne; exact h hne
            rw [hi]
            rfl
        rw [hrhs]
        by_cases hc : unitR.success = true ∧ intR.success = false <;>
          simp [hc, List.filter_cons, mkCriticalIssue]
    · simp only [compositionValidate, if_neg hb']
      exact not_any_iff_countP_zero _

/-- Unit-run result for the C9 witness: boot ok, one passing test. -/
def unitW9 : TestResult :=
  { success := true, total := 1, passed := 1, failed := 0,
    tests := [{ name := "mm_alloc", passed := true, message := "" }],
    raw_output := "[TEST] mm_alloc: PASS", boot_success := true }

/-- Integration-run result for the C9 witness: the same test fails. -/
def intW9 : TestResult :=
  { success := false, total := 1, passed := 0, failed := 1,
    tests := [{ name := "mm_alloc", passed := false, message := "page fault" }],
    raw_output := "[TEST] mm_alloc: FAIL - page fault", boot_success := true }

/-- Witness instantiating `c9_composition_validator` on a successful
build with a unit-pass and integration-fail run. -/
theorem c9_witness :
    ((⟨true, ""⟩ : BuildResult).success = true ∧ unitW9.success = true ∧
      intW9.success = false) ∧
    ((compositionValidate ⟨true, ""⟩ unitW9 intW9 none).issues.countP
        (fun i => i.severity == "critical") = 1 ∧
     ((compositionValidate ⟨true, ""⟩ unitW9 intW9 none).issues.filter
        (fun i => i.severity == "warning") =
      (intW9.tests.filter (fun t =>
        ((unitW9.tests.filter (fun u => u.passed)).map
          (fun u => u.name)).contains t.name && !t.passed)).map
        (mkWarningIssue (orUnknown none))) ∧
     ((compositionValidate ⟨true, ""⟩ unitW9 intW9 none).success = true ↔
      (compositionValidate ⟨true, ""⟩ unitW9 intW9 none).issues.countP
        (fun i => i.severity == "critical") = 0)) := by
  have h := (c9_composition_validator ⟨true, ""⟩ unitW9 intW9 none).2 rfl
  exact ⟨⟨rfl, rfl, rfl⟩, ⟨h.1 rfl rfl, h.2.1, h.2.2⟩⟩

/-- Generic association-list lookup (first entry wins, like a dict). -/
def assocFind {α : Type} (l : List (String × α)) (k : String) : Option α :=
  (l.find? (fun p => p.1 == k)).map (·.2)

/-- Update every entry stored under a key, leaving the rest unchanged. -/
def mapUpdate {α : Type} (l : List (String × α)) (k : String) (f : α → α) :
    List (String × α) :=
  l.map (fun p => if p.1 == k then (p.1, f p.2) else p)

theorem assocFind_mapUpdate {α : Type} (l : List (String × α)) (k : String)
    (f : α → α) (k' : String) :
    assocFind (mapUpdate l k f) k' =
      if k' = k then (assocFind l k').map f else assocFind l k' := by
  induction l with
  | nil => simp [assocFind, mapUpdate]
  | cons p rest ih =>
    rcases p with ⟨a, v⟩
    by_cases h1 : a = k <;> by_cases h2 : a = k' <;>
      simp_all [assocFind, mapUpdate, List.find?_cons, beq_iff_eq] <;>
      simp_all [eq_comm]

theorem assocFind_cons {α : Type} (p : String × α) (l : List (String × α))
    (k : String) :
    assocFind (p :: l) k = if p.1 = k then some p.2 else assocFind l k := by
  by_cases h : p.1 = k <;> simp [assocFind, List.find?_cons, h]

theorem assocFind_append_single_ne {α : Type} (l : List (String × α))
    (k : String) (v : α) (k' : String) (h : k' ≠ k) :
    assocFind (l ++ [(k, v)]) k' = assocFind l k' := by
  induction l with
  | nil =>
    show assocFind ((k, v) :: []) k' = assocFind [] k'
    rw [assocFind_cons, if_neg (fun hh => h hh.symm)]
  | cons p rest ih =>
    rw [List.cons_append, assocFind_cons, assocFind_cons]
    by_cases hp : p.1 = k' <;> simp [hp, ih]

theorem assocFind_append_single_self {α : Type} (l : List (String × α))
    (k : String) (v : α) (h : assocFind l k = none) :
    assocFind (l ++ [(k, v)]) k = some v := by
  induction l with
  | nil =>
    show assocFind ((k, v) :: []) k = some v
    rw [assocFind_cons, if_pos rfl]
  | cons p rest ih =>
    rw [assocFind_cons] at h
    by_cases hp : p.1 = k
    · rw [if_pos hp] at h
      cases h
    · rw [if_neg hp] at h
      rw [List.cons_append, assocFind_cons, if_neg hp]
      exact ih h

/-- Message kinds, from `MessageType` in `comms/message_bus.py`. -/
inductive MessageType where
  | task_assignment
  | task_complete
  | review_request
  | review_result
  | merge_request
  | merge_result
  | build_result
  | test_result
  | design_decision
  | escalation
  | status_update
deriving DecidableEq, Repr

/-- A message between agents, from `Message` in `message_bus.py`; the
JSON payload dict is a string map, the uuid-derived id and the
timestamp are explicit fields. -/
structure Message where
  msg_type : MessageType
  from_agent : String
  to_agent : String
  payload : List (String × String)
  msg_id : String
  timestamp : Int
  read : Bool
deriving DecidableEq, Repr

/-- State of the message store `.auton/messages/`: one entry per inbox
directory, holding that inbox's files `msg_id.json` keyed by message
id.  A missing key is a directory that does not exist. -/
abbrev BusState : Type := List (String × List (String × Message))

/-- Inbox directory of an agent, when it exists. -/
def lookupInbox (st : BusState) (agent : String) :
    Option (List (String × Message)) :=
  assocFind st agent

/-- `path.write_text(...)` in an inbox: overwrite the file of the same
name when present, create it otherwise. -/
def writeFile (files : List (String × Message)) (msgId : String)
    (m : Message) : List (String × Message) :=
  if files.any (fun p => p.1 == msgId) then
    files.map (fun p => if p.1 == msgId then (msgId, m) else p)
  else files ++ [(msgId, m)]

/-- `MessageBus.send`: ensure the recipient's inbox directory exists,
then write the message file into it — and nowhere else. -/
def send (st : BusState) (m : Message) : BusState :=
  match lookupInbox st m.to_agent with
  | some _ => mapUpdate st m.to_agent (fun files => writeFile files m.msg_id m)
  | none => st ++ [(m.to_agent, writeFile [] m.msg_id m)]

/-- The message constructed for one broadcast recipient (fresh uuid
`msgId` and timestamp `ts`, `read = False`). -/
def broadcastMsg (from_agent to_agent : String) (t : MessageType)
    (payload : List (String × String)) (msgId : String) (ts : Int) : Message :=
  { msg_type := t, from_agent := from_agent, to_agent := to_agent,
    payload := payload, msg_id := msgId, timestamp := ts, read := false }

/-- Loop of `MessageBus.broadcast` over the snapshot of existing inbox
directories: send one fresh message to each directory whose name is
not the sender, consuming one fresh id per message created. -/
def broadcastGo (X : String) (t : MessageType)
    (payload : List (String × String)) (ids : Nat → String)
    (times : Nat → Int) : List String → BusState → Nat → BusState
  | [], acc, _ => acc
  | name :: rest, acc, idx =>
    if name ≠ X then
      broadcastGo X t payload ids times rest
        (send acc (broadcastMsg X name t payload (ids idx) (times idx)))
        (idx + 1)
    else broadcastGo X t payload ids times rest acc idx

/-- `MessageBus.broadcast`: iterate over the existing inbox
directories. -/
def broadcast (st : BusState) (X : String) (t : MessageType)
    (payload : List (String × String)) (ids : Nat → String)
    (times : Nat → Int) : BusState :=
  broadcastGo X t payload ids times (st.map (fun p => p.1)) st 0

theorem send_lookup_ne (st : BusState) (m : Message) (a : String)
    (h : a ≠ m.to_agent) : lookupInbox (send st m) a = lookupInbox st a := by
  unfold send
  cases hL : lookupInbox st m.to_agent with
  | some files =>
    show assocFind (mapUpdate st m.to_agent _) a = _
    rw [assocFind_mapUpdate, if_neg h]
    rfl
  | none =>
    exact assocFind_append_single_ne st m.to_agent _ a h

theorem send_lookup_self (st : BusState) (m : Message) :
    lookupInbox (send st m) m.to_agent =
      some (writeFile ((lookupInbox st m.to_agent).getD []) m.msg_id m) := by
  unfold send
  cases hL : lookupInbox st m.to_agent with
  | some files =>
    show assocFind (mapUpdate st m.to_agent _) m.to_agent = _
    rw [assocFind_mapUpdate, if_pos rfl]
    show (lookupInbox st m.to_agent).map _ = _
    rw [hL]
    rfl
  | none =>
    exact assocFind_append_single_self st m.to_agent _ hL

theorem broadcastGo_lookup_not_mem (X : String) (t : MessageType)
    (payload : List (String × String)) (ids : Nat → String)
    (times : Nat → Int) :
    ∀ ks acc idx a, a ∉ ks →
      lookupInbox (broadcastGo X t payload ids times ks acc idx) a =
        lookupInbox acc a := by
  intro ks
  induction ks with
  | nil => intro acc idx a _; rfl
  | cons name rest ih =>
    intro acc idx a ha
    have hane : a ≠ name := fun h => ha (h ▸ List.mem_cons_self _ _)
    have harest : a ∉ rest := fun h => ha (List.mem_cons_of_mem _ h)
    unfold broadcastGo
    by_cases hn : name ≠ X
    · rw [if_pos hn, ih _ _ _ harest, send_lookup_ne _ _ _ hane]
    · rw [if_neg hn, ih _ _ _ harest]

theorem broadcastGo_lookup_sender (X : String) (t : MessageType)
    (payload : List (String × String)) (ids : Nat → String)
    (times : Nat → Int) :
    ∀ ks acc idx,
      lookupInbox (broadcastGo X t payload ids times ks acc idx) X =
        lookupInbox acc X := by
  intro ks
  induction ks with
  | nil => intro acc idx; rfl
  | cons name rest ih =>
    intro acc idx
    unfold broadcastGo
    by_cases hn : name ≠ X
    · rw [if_pos hn, ih, send_lookup_ne _ _ _ (fun h => hn h.symm)]
    · rw [if_neg hn, ih]

theorem writeFile_fresh (files : List (String × Message)) (msgId : String)
    (m : Message) (h : ∀ f ∈ files, f.1 ≠ msgId) :
    writeFile files msgId m = files ++ [(msgId, m)] := by
  unfold writeFile
  rw [if_neg]
  intro hany
  rcases List.any_eq_true.mp hany with ⟨f, hf, hfe⟩
  exact h f hf (by simpa using hfe)

theorem broadcastGo_lookup_recipient (st : BusState) (X : String)
    (t : MessageType) (payload : List (String × String))
    (ids : Nat → String) (times : Nat → Int)
    (hfresh : ∀ i Y files, lookupInbox st Y = some files →
      ∀ f ∈ files, f.1 ≠ ids i) :
    ∀ ks acc idx Y, ks.Nodup →
      (∀ Z ∈ ks, lookupInbox acc Z = lookupInbox st Z) →
      Y ∈ ks → Y ≠ X →
      ∃ i, lookupInbox (broadcastGo X t payload ids times ks acc idx) Y =
        some (((lookupInbox st Y).getD []) ++
          [(ids i, broadcastMsg X Y t payload (ids i) (times i))]) := by
  intro ks
  induction ks with
  | nil => intro acc idx Y _ _ hmem; cases hmem
  | cons name rest ih =>
    intro acc idx Y hnd hagree hmem hYX
    have hndr : rest.Nodup := (List.nodup_cons.mp hnd).2
    have hnmem : name ∉ rest := (List.nodup_cons.mp hnd).1
    by_cases hY : Y = name
    · subst hY
      unfold broadcastGo
      rw [if_pos hYX]
      refine ⟨idx, ?_⟩
      rw [broadcastGo_lookup_not_mem X t payload ids times rest _ _ Y hnmem]
      have hsend := send_lookup_self acc
        (broadcastMsg X Y t payload (ids idx) (times idx))
      have hacc : lookupInbox acc Y = lookupInbox st Y :=
        hagree Y (List.mem_cons_self _ _)
      simp only [broadcastMsg] at hsend ⊢
      rw [hacc] at hsend
      rw [hsend]
      congr 1
      cases hst : lookupInbox st Y with
      | none =>
        simp [writeFile]
      | some files =>
        show writeFile files (ids idx) _ = files ++ _
        rw [writeFile_fresh files (ids idx) _ (fun f hf => hfresh idx Y files hst f hf)]
    · have hmemr : Y ∈ rest := by
        cases hmem with
        | head => exact absurd rfl hY
        | tail _ hq => exact hq
      unfold broadcastGo
      by_cases hn : name ≠ X
      · rw [if_pos hn]
        refine ih _ _ Y hndr ?_ hmemr hYX
        intro Z hZ
        have hZname : Z ≠ name := fun h => hnmem (h ▸ hZ)
        rw [send_lookup_ne _ _ _ hZname]
        exact hagree Z (List.mem_cons_of_mem _ hZ)
      · rw [if_neg hn]
        exact ih _ _ Y hndr
          (fun Z hZ => hagree Z (List.mem_cons_of_mem _ hZ)) hmemr hYX

/-- C7: `send(m)` changes only the recipient's inbox — every other
agent's inbox is untouched, so `m` is visible to no other `receive` —
writing exactly the file of `m` there; and `broadcast(from_agent = X)`
appends exactly one fresh copy of the message to every inbox directory
existing at call time other than `X`'s, leaves `X`'s inbox unchanged
and creates no other inbox.  Fresh uuids are assumed not to collide
with existing file names. -/
theorem c7_message_isolation (st : BusState)
    (hnodup : (st.map (fun p => p.1)).Nodup) (X : String) (t : MessageType)
    (payload : List (String × String)) (ids : Nat → String)
    (times : Nat → Int)
    (hfresh : ∀ i Y files, lookupInbox st Y = some files →
      ∀ f ∈ files, f.1 ≠ ids i) :
    (∀ m : Message,
      (∀ a, a ≠ m.to_agent → lookupInbox (send st m) a = lookupInbox st a) ∧
      lookupInbox (send st m) m.to_agent =
        some (writeFile ((lookupInbox st m.to_agent).getD []) m.msg_id m)) ∧
    (∀ Y, Y ∈ st.map (fun p => p.1) → Y ≠ X → ∃ i,
      lookupInbox (broadcast st X t payload ids times) Y =
        some (((lookupInbox st Y).getD []) ++
          [(ids i, broadcastMsg X Y t payload (ids i) (times i))])) ∧
    (lookupInbox (broadcast st X t payload ids times) X = lookupInbox st X) ∧
    (∀ a, a ∉ st.map (fun p => p.1) →
      lookupInbox (broadcast st X t payload ids times) a =
        lookupInbox st a) := by
  refine ⟨?_, ?_, ?_, ?_⟩
  · intro m
    exact ⟨fun a ha => send_lookup_ne st m a ha, send_lookup_self st m⟩
  · intro Y hmem hYX
    exact broadcastGo_lookup_recipient st X t payload ids times hfresh
      (st.map (fun p => p.1)) st 0 Y hnodup (fun _ _ => rfl) hmem hYX
  · exact broadcastGo_lookup_sender X t payload ids times _ st 0
  · intro a ha
    exact broadcastGo_lookup_not_mem X t payload ids times _ st 0 a ha

/-- Bus state for the C7 witness: three empty inbox directories. -/
def stW7 : BusState := [("dev", []), ("rev", []), ("boss", [])]

/-- Witness instantiating `c7_message_isolation` on `stW7` with sender
`boss`. -/
theorem c7_witness :
    ((stW7.map (fun p => p.1)).Nodup ∧
      (∀ (i : Nat) Y files, lookupInbox stW7 Y = some files →
        ∀ f ∈ files, f.1 ≠ "m" ++ toString i)) ∧
    ((∀ m : Message,
      (∀ a, a ≠ m.to_agent →
        lookupInbox (send stW7 m) a = lookupInbox stW7 a) ∧
      lookupInbox (send stW7 m) m.to_agent =
        some (writeFile ((lookupInbox stW7 m.to_agent).getD []) m.msg_id m)) ∧
    (∀ Y, Y ∈ stW7.map (fun p => p.1) → Y ≠ "boss" → ∃ i : Nat,
      lookupInbox (broadcast stW7 "boss" MessageType.status_update []
          (fun i => "m" ++ toString i) (fun _ => 0)) Y =
        some (((lookupInbox stW7 Y).getD []) ++
          [("m" ++ toString i,
            broadcastMsg "boss" Y MessageType.status_update []
              ("m" ++ toString i) 0)])) ∧
    (lookupInbox (broadcast stW7 "boss" MessageType.status_update []
        (fun i => "m" ++ toString i) (fun _ => 0)) "boss" =
      lookupInbox stW7 "boss") ∧
    (∀ a, a ∉ stW7.map (fun p => p.1) →
      lookupInbox (broadcast stW7 "boss" MessageType.status_update []
          (fun i => "m" ++ toString i) (fun _ => 0)) a =
        lookupInbox stW7 a)) := by
  have hfresh : ∀ (i : Nat) Y files, lookupInbox stW7 Y = some files →
      ∀ f ∈ files, f.1 ≠ "m" ++ toString i := by
    intro i Y files h f hf
    have hfiles : files = [] := by
      unfold lookupInbox assocFind at h
      cases hfind : (stW7.find? (fun p => p.1 == Y)) with
      | none => rw [hfind] at h; cases h
      | some p =>
        rw [hfind] at h
        have hp : p.2 = files := by simpa using h
        have hpm := List.mem_of_find?_eq_some hfind
        have hp2 : p.2 = [] := by
          rcases List.mem_cons.mp hpm with h1 | hpm2
          · rw [h1]
          rcases List.mem_cons.mp hpm2 with h1 | hpm3
          · rw [h1]
          rcases List.mem_cons.mp hpm3 with h1 | hpm4
          · rw [h1]
          cases hpm4
        rw [← hp, hp2]
    rw [hfiles] at hf
    cases hf
  exact ⟨⟨by decide, hfresh⟩,
    c7_message_isolation stW7 (by decide) "boss" MessageType.status_update []
      (fun i => "m" ++ toString i) (fun _ => 0) hfresh⟩

/-- Agent lifecycle states, from `AgentState` in
`agents/base_agent.py`. -/
inductive AgentState where
  | idle
  | thinking
  | executing
  | waiting
  | done
  | error
deriving DecidableEq, Repr

/-- An agent slot of the scheduler pool, from `AgentSlot` in
`core/scheduler.py`; the wrapped `Agent` object is flattened to the
two fields the scheduler reads, its id and its state. -/
structure AgentSlot where
  agent_id : String
  agent_state : AgentState
  current_task : Option String
  busy : Bool
deriving DecidableEq, Repr

/-- The scheduler's agent pool `self._agents`: role → list of slots. -/
abbrev AgentPool : Type := List (String × List AgentSlot)

/-- Availability test of `Scheduler.get_available_agent`:
`not slot.busy and slot.agent.state in (IDLE, DONE)`. -/
def slotAvailable (s : AgentSlot) : Bool :=
  !s.busy && (s.agent_state = AgentState.idle || s.agent_state = AgentState.done)

/-- First available slot of a role's list, with its position. -/
def findAvailable : List AgentSlot → Option (Nat × AgentSlot)
  | [] => none
  | s :: rest =>
    if slotAvailable s then some (0, s)
    else (findAvailable rest).map (fun p => (p.1 + 1, p.2))

/-- `Scheduler.get_available_agent` (`self._agents.get(role, [])`). -/
def getAvailableAgent (pool : AgentPool) (role : String) :
    Option (Nat × AgentSlot) :=
  findAvailable ((assocFind pool role).getD [])

/-- Slot stored at a role and position of the pool. -/
def slotAt (pool : AgentPool) (role : String) (i : Nat) : Option AgentSlot :=
  ((assocFind pool role).getD []).get? i

/-- Positional in-place update of one slot of a list. -/
def updateAt (f : AgentSlot → AgentSlot) : List AgentSlot → Nat → List AgentSlot
  | [], _ => []
  | s :: rest, 0 => f s :: rest
  | s :: rest, n + 1 => s :: updateAt f rest n

/-- The slot mutation `slot.busy = True; slot.current_task = task_id`
performed by `get_assignments` on the selected slot object. -/
def markBusy (pool : AgentPool) (role : String) (i : Nat) (taskId : String) :
    AgentPool :=
  mapUpdate pool role (fun slots =>
    updateAt (fun s => { s with busy := true, current_task := some taskId })
      slots i)

/-- `TaskGraph.get_ready_tasks`: ready tasks sorted by priority
(Python's stable `sorted`). -/
def getReadyTasks (g : TaskGraph) : List TaskNode :=
  ((g.nodes.map (fun p => p.2)).filter
    (fun n => n.state = TaskState.ready)).mergeSort
    (fun a b => a.priority ≤ b.priority)

/-- Loop of `Scheduler.get_assignments` over the ready tasks: for each
task take the first available slot of the task's role, mark it busy
with the task, record the assignment in the graph, and append the
(slot, task) pair.  A slot is identified by its role and position. -/
def getAssignmentsGo :
    List TaskNode → AgentPool → TaskGraph →
    List ((String × Nat) × TaskNode) →
    AgentPool × TaskGraph × List ((String × Nat) × TaskNode)
  | [], pool, g, acc => (pool, g, acc)
  | task :: rest, pool, g, acc =>
    match getAvailableAgent pool task.assigned_to with
    | none => getAssignmentsGo rest pool g acc
    | some (i, s) =>
      getAssignmentsGo rest
        (markBusy pool task.assigned_to i task.task_id)
        (assignAgent g task.task_id s.agent_id).1
        (acc ++ [((task.assigned_to, i), task)])

/-- `Scheduler.get_assignments`. -/
def getAssignments (pool : AgentPool) (g : TaskGraph) :
    AgentPool × TaskGraph × List ((String × Nat) × TaskNode) :=
  getAssignmentsGo (getReadyTasks g) pool g []

theorem updateAt_get_ne (f : AgentSlot → AgentSlot) :
    ∀ (l : List AgentSlot) (i i' : Nat), i' ≠ i →
      (updateAt f l i).get? i' = l.get? i' := by
  intro l
  induction l with
  | nil => intro i i' _; rfl
  | cons s rest ih =>
    intro i i' hne
    cases i with
    | zero =>
      cases i' with
      | zero => exact absurd rfl hne
      | succ j => rfl
    | succ n =>
      cases i' with
      | zero => rfl
      | succ j =>
        show (updateAt f rest n).get? j = rest.get? j
        exact ih n j (fun h => hne (by rw [h]))

theorem updateAt_get_self (f : AgentSlot → AgentSlot) :
    ∀ (l : List AgentSlot) (i : Nat),
      (updateAt f l i).get? i = (l.get? i).map f := by
  intro l
  induction l with
  | nil => intro i; rfl
  | cons s rest ih =>
    intro i
    cases i with
    | zero => rfl
    | succ n => exact ih n

theorem slotAt_markBusy (pool : AgentPool) (role : String) (i : Nat)
    (tid : String) (role' : String) (i' : Nat) :
    slotAt (markBusy pool role i tid) role' i' =
      if role' = role ∧ i' = i then
        (slotAt pool role i).map
          (fun s => { s with busy := true, current_task := some tid })
      else slotAt pool role' i' := by
  unfold slotAt markBusy
  rw [assocFind_mapUpdate]
  by_cases hr : role' = role
  · subst hr
    rw [if_pos rfl]
    by_cases hi : i' = i
    · subst hi
      rw [if_pos ⟨rfl, rfl⟩]
      cases hf : assocFind pool role' with
      | none => rfl
      | some slots => exact updateAt_get_self _ slots i'
    · rw [if_neg (fun h => hi h.2)]
      cases hf : assocFind pool role' with
      | none => rfl
      | some slots => exact updateAt_get_ne _ slots i i' hi
  · rw [if_neg hr, if_neg (fun h => hr h.1)]

theorem findAvailable_spec :
    ∀ (slots : List AgentSlot) (i : Nat) (s : AgentSlot),
      findAvailable slots = some (i, s) →
      slots.get? i = some s ∧ slotAvailable s = true := by
  intro slots
  induction slots with
  | nil => intro i s h; cases h
  | cons a rest ih =>
    intro i s h
    unfold findAvailable at h
    by_cases ha : slotAvailable a
    · rw [if_pos ha] at h
      cases h
      exact ⟨rfl, ha⟩
    · rw [if_neg ha] at h
      cases hr : findAvailable rest with
      | none => rw [hr] at h; cases h
      | some p =>
        rw [hr] at h
        cases h
        obtain ⟨h1, h2⟩ := ih p.1 p.2 hr
        exact ⟨h1, h2⟩

/-- Evolution of one slot during a `get_assignments` call: identity
and agent state never change, and a busy slot is frozen entirely. -/
def slotEvolves (s s' : AgentSlot) : Prop :=
  s'.agent_id = s.agent_id ∧ s'.agent_state = s.agent_state ∧
    (s.busy = true → s' = s)

/-- Evolution of the whole pool: shape is preserved and every slot
evolves. -/
def poolEvolves (p q : AgentPool) : Prop :=
  ∀ role i,
    (slotAt p role i = none ∧ slotAt q role i = none) ∨
    (∃ s s', slotAt p role i = some s ∧ slotAt q role i = some s' ∧
      slotEvolves s s')

theorem poolEvolves_refl (p : AgentPool) : poolEvolves p p := by
  intro role i
  cases h : slotAt p role i with
  | none => exact Or.inl ⟨rfl, rfl⟩
  | some s => exact Or.inr ⟨s, s, rfl, rfl, rfl, rfl, fun _ => rfl⟩

theorem poolEvolves_trans {p q r : AgentPool} (h1 : poolEvolves p q)
    (h2 : poolEvolves q r) : poolEvolves p r := by
  intro role i
  rcases h1 role i with ⟨ha, hb⟩ | ⟨s, s', hs, hs', he⟩
  · rcases h2 role i with ⟨hc, hd⟩ | ⟨u, u', hu, _, _⟩
    · exact Or.inl ⟨ha, hd⟩
    · rw [hb] at hu; cases hu
  · rcases h2 role i with ⟨hc, _⟩ | ⟨u, u', hu, hu', he2⟩
    · rw [hs'] at hc; cases hc
    · rw [hs'] at hu
      cases hu
      refine Or.inr ⟨s, u', hs, hu', ?_, ?_, ?_⟩
      · rw [he2.1, he.1]
      · rw [he2.2.1, he.2.1]
      · intro hbusy
        have hq : s' = s := he.2.2 hbusy
        have : u' = s' := he2.2.2 (by rw [hq]; exact hbusy)
        rw [this, hq]

theorem markBusy_evolves (pool : AgentPool) (role : String) (i : Nat)
    (tid : String) (s : AgentSlot) (hs : slotAt pool role i = some s)
    (hb : s.busy = false) : poolEvolves pool (markBusy pool role i tid) := by
  intro role' i'
  rw [slotAt_markBusy]
  by_cases h : role' = role ∧ i' = i
  · rw [if_pos h]
    rcases h with ⟨h1, h2⟩
    subst h1
    subst h2
    rw [hs]
    exact Or.inr ⟨s, _, rfl, rfl, rfl, rfl, fun hbusy => by
      rw [hbusy] at hb; cases hb⟩
  · rw [if_neg h]
    cases hq : slotAt pool role' i' with
    | none => exact Or.inl ⟨rfl, rfl⟩
    | some u => exact Or.inr ⟨u, u, rfl, rfl, rfl, rfl, fun _ => rfl⟩

theorem getAssignmentsGo_spec (pre : AgentPool) :
    ∀ (tasks : List TaskNode) (pool : AgentPool) (g : TaskGraph)
      (acc : List ((String × Nat) × TaskNode)),
    poolEvolves pre pool →
    (∀ e ∈ acc, ∃ s, slotAt pool e.1.1 e.1.2 = some s ∧ s.busy = true ∧
      s.current_task = some e.2.task_id) →
    (∀ e ∈ acc, ∃ s0, slotAt pre e.1.1 e.1.2 = some s0 ∧ s0.busy = false) →
    (∀ e ∈ acc, ∀ t ∈ tasks, e.2.task_id ≠ t.task_id) →
    (tasks.map (fun t => t.task_id)).Nodup →
    acc.Pairwise (fun e1 e2 => e1.1 ≠ e2.1 ∧ e1.2.task_id ≠ e2.2.task_id) →
    tasks.Pairwise (fun a b => a.priority ≤ b.priority) →
    (∀ e ∈ acc, ∀ t ∈ tasks, e.2.priority ≤ t.priority) →
    acc.Pairwise (fun e1 e2 => e1.2.priority ≤ e2.2.priority) →
    (getAssignmentsGo tasks pool g acc).2.2.Pairwise
      (fun e1 e2 => e1.1 ≠ e2.1 ∧ e1.2.task_id ≠ e2.2.task_id) ∧
    (∀ e ∈ (getAssignmentsGo tasks pool g acc).2.2,
      ∃ s, slotAt (getAssignmentsGo tasks pool g acc).1 e.1.1 e.1.2 = some s ∧
        s.busy = true ∧ s.current_task = some e.2.task_id) ∧
    (∀ e ∈ (getAssignmentsGo tasks pool g acc).2.2,
      ∃ s0, slotAt pre e.1.1 e.1.2 = some s0 ∧ s0.busy = false) ∧
    (getAssignmentsGo tasks pool g acc).2.2.Pairwise
      (fun e1 e2 => e1.2.priority ≤ e2.2.priority) := by
  intro tasks
  induction tasks with
  | nil =>
    intro pool g acc hevol hbusy hpre _ _ hR _ _ hP
    exact ⟨hR, hbusy, hpre, hP⟩
  | cons task rest ih =>
    intro pool g acc hevol hbusy hpre hdisj hnodup hR hsorted hle hP
    have hnodup' : (rest.map (fun t => t.task_id)).Nodup :=
      (List.nodup_cons.mp hnodup).2
    have hheadid : task.task_id ∉ rest.map (fun t => t.task_id) :=
      (List.nodup_cons.mp hnodup).1
    have hsorted' : rest.Pairwise (fun a b => a.priority ≤ b.priority) :=
      (List.pairwise_cons.mp hsorted).2
    have hheadle : ∀ t ∈ rest, task.priority ≤ t.priority :=
      (List.pairwise_cons.mp hsorted).1
    show (getAssignmentsGo (task :: rest) pool g acc).2.2.Pairwise _ ∧ _
    unfold getAssignmentsGo
    cases hav : getAvailableAgent pool task.assigned_to with
    | none =>
      exact ih pool g acc hevol hbusy hpre
        (fun e he t ht => hdisj e he t (List.mem_cons_of_mem _ ht))
        hnodup' hR hsorted'
        (fun e he t ht => hle e he t (List.mem_cons_of_mem _ ht)) hP
    | some p =>
      obtain ⟨i, s⟩ := p
      obtain ⟨hget, havail⟩ := findAvailable_spec _ i s hav
      have hslot : slotAt pool task.assigned_to i = some s := hget
      have hsbusy : s.busy = false := by
        unfold slotAvailable at havail
        rcases (Bool.and_eq_true _ _).mp havail with ⟨h1, _⟩
        simpa using h1
      have hrefne : ∀ e ∈ acc, e.1 ≠ (task.assigned_to, i) := by
        intro e he hEq
        obtain ⟨se, hse, hsebusy, _⟩ := hbusy e he
        rw [hEq] at hse
        rw [hse] at hslot
        cases hslot
        rw [hsebusy] at hsbusy
        cases hsbusy
      set pool' := markBusy pool task.assigned_to i task.task_id with hpool'
      have hevolstep : poolEvolves pool pool' :=
        markBusy_evolves pool task.assigned_to i task.task_id s hslot hsbusy
      have hbusy' : ∀ e ∈ acc ++ [((task.assigned_to, i), task)],
          ∃ u, slotAt pool' e.1.1 e.1.2 = some u ∧ u.busy = true ∧
            u.current_task = some e.2.task_id := by
        intro e he
        rcases List.mem_append.mp he with he | he
        · obtain ⟨u, hu, hub, hut⟩ := hbusy e he
          refine ⟨u, ?_, hub, hut⟩
          rw [hpool', slotAt_markBusy,
            if_neg (fun hh => hrefne e he (by
              cases e with
              | mk r t2 =>
                cases r with
                | mk a b =>
                  simp only at hh
                  rw [hh.1, hh.2]))]
          exact hu
        · have he2 : e = ((task.assigned_to, i), task) := by simpa using he
          subst he2
          refine ⟨{ s with busy := true, current_task := some task.task_id },
            ?_, rfl, rfl⟩
          rw [hpool', slotAt_markBusy, if_pos ⟨rfl, rfl⟩, hslot]
          rfl
      have hpre' : ∀ e ∈ acc ++ [((task.assigned_to, i), task)],
          ∃ s0, slotAt pre e.1.1 e.1.2 = some s0 ∧ s0.busy = false := by
        intro e he
        rcases List.mem_append.mp he with he | he
        · exact hpre e he
        · have he2 : e = ((task.assigned_to, i), task) := by simpa using he
          subst he2
          rcases hevol task.assigned_to i with ⟨h1, h2⟩ | ⟨s0, s', h0, h1, he3⟩
          · rw [h2] at hslot; cases hslot
          · rw [h1] at hslot
            cases hslot
            refine ⟨s0, h0, ?_⟩
            by_cases hb0 : s0.busy = true
            · have := he3.2.2 hb0
              rw [this] at hsbusy
              rw [hsbusy] at hb0
              cases hb0
            · simpa using hb0
      have hdisj' : ∀ e ∈ acc ++ [((task.assigned_to, i), task)],
          ∀ t ∈ rest, e.2.task_id ≠ t.task_id := by
        intro e he t ht
        rcases List.mem_append.mp he with he | he
        · exact hdisj e he t (List.mem_cons_of_mem _ ht)
        · have he2 : e = ((task.assigned_to, i), task) := by simpa using he
          subst he2
          intro hEq
          exact hheadid (by
            rw [hEq]
            exact List.mem_map_of_mem _ ht)
      have hR' : (acc ++ [((task.assigned_to, i), task)]).Pairwise
          (fun e1 e2 => e1.1 ≠ e2.1 ∧ e1.2.task_id ≠ e2.2.task_id) := by
        rw [List.pairwise_append]
        refine ⟨hR, List.pairwise_singleton _ _, ?_⟩
        intro e he e2 he2
        have he3 : e2 = ((task.assigned_to, i), task) := by simpa using he2
        subst he3
        exact ⟨hrefne e he, hdisj e he task (List.mem_cons_self _ _)⟩
      have hle' : ∀ e ∈ acc ++ [((task.assigned_to, i), task)],
          ∀ t ∈ rest, e.2.priority ≤ t.priority := by
        intro e he t ht
        rcases List.mem_append.mp he with he | he
        · exact hle e he t (List.mem_cons_of_mem _ ht)
        · have he2 : e = ((task.assigned_to, i), task) := by simpa using he
          subst he2
          exact hheadle t ht
      have hP' : (acc ++ [((task.assigned_to, i), task)]).Pairwise
          (fun e1 e2 => e1.2.priority ≤ e2.2.priority) := by
        rw [List.pairwise_append]
        refine ⟨hP, List.pairwise_singleton _ _, ?_⟩
        intro e he e2 he2
        have he3 : e2 = ((task.assigned_to, i), task) := by simpa using he2
        subst he3
        exact hle e he task (List.mem_cons_self _ _)
      exact ih pool' (assignAgent g task.task_id s.agent_id).1 _
        (poolEvolves_trans hevol hevolstep) hbusy' hpre' hdisj' hnodup' hR'
        hsorted' hle' hP'

theorem map_congr_mem {α β : Type} (l : List α) (f g : α → β)
    (h : ∀ a ∈ l, f a = g a) : l.map f = l.map g := by
  induction l with
  | nil => rfl
  | cons a rest ih =>
    simp only [List.map_cons, h a (List.mem_cons_self _ _)]
    rw [ih (fun b hb => h b (List.mem_cons_of_mem _ hb))]

theorem readyTasks_ids_nodup (g : TaskGraph) (hwf : WF g) :
    ((getReadyTasks g).map (fun t => t.task_id)).Nodup := by
  have hvals : ((g.nodes.map (fun p => p.2)).map (fun t => t.task_id)).Nodup := by
    rw [List.map_map]
    show (g.nodes.map (fun p => p.2.task_id)).Nodup
    rw [map_congr_mem g.nodes _ (fun p => p.1) (fun p hp => hwf.2.2.1 p hp)]
    exact hwf.1
  have hsub : ((g.nodes.map (fun p => p.2)).filter
      (fun n => n.state = TaskState.ready)).Sublist
      (g.nodes.map (fun p => p.2)) := List.filter_sublist _
  have hfilterN : (((g.nodes.map (fun p => p.2)).filter
      (fun n => n.state = TaskState.ready)).map (fun t => t.task_id)).Nodup :=
    List.Nodup.sublist (hsub.map (fun t => t.task_id)) hvals
  have hperm := List.mergeSort_perm
    ((g.nodes.map (fun p => p.2)).filter (fun n => n.state = TaskState.ready))
    (fun a b => a.priority ≤ b.priority)
  exact (List.Perm.nodup_iff (hperm.map (fun t => t.task_id))).mpr hfilterN

theorem readyTasks_sorted (g : TaskGraph) :
    (getReadyTasks g).Pairwise (fun a b => a.priority ≤ b.priority) := by
  unfold getReadyTasks
  have h := @List.sorted_mergeSort TaskNode
    (fun a b => decide (a.priority ≤ b.priority))
    (fun a b c hab hbc => by
      simp only [decide_eq_true_eq] at hab hbc ⊢
      omega)
    (fun a b => by
      rcases Int.le_total a.priority b.priority with h | h <;> simp [h])
    ((g.nodes.map (fun p => p.2)).filter (fun n => n.state = TaskState.ready))
  exact h.imp (fun hab => by simpa using hab)

/-- C4: in one `get_assignments` call, no slot (identified by role and
position) and no task appears in two returned pairs; every returned
slot was non-busy in the pre-call pool and is busy with exactly its
task's id in the post-call pool; and the pairs come in ascending
task-priority order. -/
theorem c4_scheduler_assignments (pool : AgentPool) (g : TaskGraph)
    (hwf : WF g) :
    (getAssignments pool g).2.2.Pairwise
      (fun e1 e2 => e1.1 ≠ e2.1 ∧ e1.2.task_id ≠ e2.2.task_id) ∧
    (∀ e ∈ (getAssignments pool g).2.2,
      (∃ s0, slotAt pool e.1.1 e.1.2 = some s0 ∧ s0.busy = false) ∧
      (∃ u, slotAt (getAssignments pool g).1 e.1.1 e.1.2 = some u ∧
        u.busy = true ∧ u.current_task = some e.2.task_id)) ∧
    (getAssignments pool g).2.2.Pairwise
      (fun e1 e2 => e1.2.priority ≤ e2.2.priority) := by
  have h := getAssignmentsGo_spec pool (getReadyTasks g) pool g []
    (poolEvolves_refl pool) (fun e he => by cases he) (fun e he => by cases he)
    (fun e he => by cases he) (readyTasks_ids_nodup g hwf) List.Pairwise.nil
    (readyTasks_sorted g) (fun e he => by cases he) List.Pairwise.nil
  exact ⟨h.1, fun e he => ⟨h.2.2.1 e he, h.2.1 e he⟩, h.2.2.2⟩

/-- Agent pool for the C4 witness: one idle developer. -/
def poolW4 : AgentPool :=
  [("developer", [{ agent_id := "agent-1", agent_state := AgentState.idle,
                    current_task := none, busy := false }])]

/-- Witness instantiating `c4_scheduler_assignments` on `poolW4` and
the two-task graph `gW1`. -/
theorem c4_witness :
    WF gW1 ∧
    ((getAssignments poolW4 gW1).2.2.Pairwise
      (fun e1 e2 => e1.1 ≠ e2.1 ∧ e1.2.task_id ≠ e2.2.task_id) ∧
    (∀ e ∈ (getAssignments poolW4 gW1).2.2,
      (∃ s0, slotAt poolW4 e.1.1 e.1.2 = some s0 ∧ s0.busy = false) ∧
      (∃ u, slotAt (getAssignments poolW4 gW1).1 e.1.1 e.1.2 = some u ∧
        u.busy = true ∧ u.current_task = some e.2.task_id)) ∧
    (getAssignments poolW4 gW1).2.2.Pairwise
      (fun e1 e2 => e1.2.priority ≤ e2.2.priority)) :=
  ⟨by decide, c4_scheduler_assignments poolW4 gW1 (by decide)⟩

/-- Known dependencies of a task id: the entries of its dependency
list that name a task present in the graph (with multiplicity). -/
def depSet (g : TaskGraph) (a : String) : List String :=
  match lookupNode g a with
  | none => []
  | some n => n.dependencies.filter (fun d => (lookupNode g d).isSome)

/-- Number of known-dependency entries (with multiplicity); this is
what the in-degree construction counts. -/
def occOf (g : TaskGraph) (a : String) : Nat := (depSet g a).length

/-- Number of distinct known dependencies of `a` already emitted. -/
def emittedDeps (g : TaskGraph) (order : List String) (a : String) : Nat :=
  ((depSet g a).dedup.filter (fun d => decide (d ∈ order))).length

/-- A path through known-dependency edges: `DepPath g a b l` means
one can walk from `a` to `b` stepping from each task to one of its
known dependencies, visiting `l` in between. -/
def DepPath (g : TaskGraph) : String → String → List String → Prop
  | a, b, [] => b ∈ depSet g a
  | a, b, c :: l => c ∈ depSet g a ∧ DepPath g c b l

/-- The known-dependency relation has a cycle. -/
def HasCycle (g : TaskGraph) : Prop := ∃ a l, DepPath g a a l

/-- No task lists the same known dependency twice. -/
def NoDupKnownDeps (g : TaskGraph) : Prop :=
  ∀ p ∈ g.nodes,
    (p.2.dependencies.filter (fun d => (lookupNode g d).isSome)).Nodup

instance (g : TaskGraph) : Decidable (NoDupKnownDeps g) := by
  unfold NoDupKnownDeps; infer_instance

/-- Every task of the list has all its known dependencies among the
previously seen ids. -/
def DepsBefore (g : TaskGraph) : List String → List String → Prop
  | _, [] => True
  | seen, a :: rest =>
    (∀ d ∈ depSet g a, d ∈ seen) ∧ DepsBefore g (seen ++ [a]) rest

/-- Inner loop of the in-degree construction in
`TaskGraph.topological_order`: one `+= 1` on the node's own entry per
dependency that is a key of the dict. -/
def addDeps (tid : String) (acc : List (String × Int)) (deps : List String) :
    List (String × Int) :=
  deps.foldl
    (fun acc2 dep =>
      if acc2.any (fun q => q.1 == dep) then
        mapUpdate acc2 tid (fun v => v + 1)
      else acc2) acc

/-- The in-degree dict `{tid: 0 for tid in self._nodes}` updated over
every node's dependency list. -/
def initInDegree (g : TaskGraph) : List (String × Int) :=
  g.nodes.foldl (fun acc p => addDeps p.2.task_id acc p.2.dependencies)
    (g.nodes.map (fun p => (p.1, (0 : Int))))

/-- Body of the emission step: decrement the in-degree of every
dependent of the emitted task that is a key of the dict, enqueueing
those that reach zero. -/
def processDependents (indeg : List (String × Int)) (queue : List String)
    (ds : List String) : List (String × Int) × List String :=
  ds.foldl
    (fun acc d =>
      if acc.1.any (fun q => q.1 == d) then
        let indeg2 := mapUpdate acc.1 d (fun v => v - 1)
        if (assocFind indeg2 d).getD 0 = 0 then (indeg2, acc.2 ++ [d])
        else (indeg2, acc.2)
      else acc) (indeg, queue)

/-- Kahn's-algorithm loop of `topological_order`, with explicit fuel;
the final in-degree dict is returned alongside the emitted order. -/
def kahnGo (g : TaskGraph) :
    Nat → List (String × Int) → List String → List String →
    List String × List (String × Int)
  | 0, indeg, _, order => (order, indeg)
  | _ + 1, indeg, [], order => (order, indeg)
  | fuel + 1, indeg, tid :: rest, order =>
    let p := processDependents indeg rest (dependentsOf g tid)
    kahnGo g fuel p.1 p.2 (order ++ [tid])

/-- Fuel sufficient for the loop to drain its queue: one unit per
initially queued task plus one per dependency-list entry. -/
def kahnFuel (g : TaskGraph) : Nat :=
  g.nodes.length + g.nodes.foldl (fun a p => a + p.2.dependencies.length) 0

/-- `TaskGraph.topological_order`: Kahn's algorithm; when the emitted
order misses tasks, raise carrying the unemitted task ids. -/
def topologicalOrder (g : TaskGraph) : Except (List String) (List String) :=
  let indeg := initInDegree g
  let queue := (indeg.filter (fun q => q.2 == 0)).map (fun q => q.1)
  let order := (kahnGo g (kahnFuel g) indeg queue []).1
  if order.length ≠ g.nodes.length then
    Except.error ((nodeKeys g).filter (fun k => !(order.contains k)))
  else Except.ok order

theorem mapUpdate_keys {α : Type} (l : List (String × α)) (k : String)
    (f : α → α) : (mapUpdate l k f).map (fun q => q.1) = l.map (fun q => q.1) := by
  induction l with
  | nil => rfl
  | cons p rest ih =>
    by_cases h : p.1 = k <;> simp_all [mapUpdate]

theorem mapUpdate_not_mem {α : Type} (l : List (String × α)) (k : String)
    (f : α → α) (h : k ∉ l.map (fun q => q.1)) : mapUpdate l k f = l := by
  induction l with
  | nil => rfl
  | cons p rest ih =>
    have h1 : (p.1 == k) = false := by
      rw [beq_eq_false_iff_ne]
      intro hh
      exact h (by rw [← hh]; exact List.mem_cons_self _ _)
    have h2 : k ∉ rest.map (fun q => q.1) :=
      fun hh => h (List.mem_cons_of_mem _ hh)
    show (if (p.1 == k) = true then (p.1, f p.2) else p) ::
      rest.map (fun p => if p.1 == k then (p.1, f p.2) else p) = p :: rest
    rw [h1, if_neg (by simp)]
    rw [show rest.map (fun p => if p.1 == k then (p.1, f p.2) else p) =
      mapUpdate rest k f from rfl, ih h2]

theorem keyAny_iff_mem {α : Type} (l : List (String × α)) (k : String) :
    l.any (fun q => q.1 == k) = true ↔ k ∈ l.map (fun q => q.1) := by
  rw [List.any_eq_true]
  constructor
  · rintro ⟨q, hq, hqe⟩
    exact (by simpa using hqe : q.1 = k) ▸ List.mem_map_of_mem _ hq
  · intro hk
    rcases List.mem_map.mp hk with ⟨q, hq, hqe⟩
    exact ⟨q, hq, by simpa using hqe⟩

theorem assocFind_isSome_iff_mem {α : Type} (l : List (String × α))
    (k : String) : (assocFind l k).isSome = true ↔ k ∈ l.map (fun q => q.1) := by
  induction l with
  | nil => simp [assocFind]
  | cons p rest ih =>
    rw [assocFind_cons]
    by_cases h : p.1 = k
    · simp [h]
    · simp only [if_neg h, List.map_cons, List.mem_cons]
      rw [ih]
      constructor
      · intro hk; exact Or.inr hk
      · rintro (hk | hk)
        · exact absurd hk.symm h
        · exact hk

theorem mem_nodup_assocFind {α : Type} (l : List (String × α)) (k : String)
    (v : α) (hnd : (l.map (fun q => q.1)).Nodup) (hm : (k, v) ∈ l) :
    assocFind l k = some v := by
  induction l with
  | nil => cases hm
  | cons p rest ih =>
    rw [assocFind_cons]
    rcases List.mem_cons.mp hm with h | h
    · rw [← h]
      rw [if_pos rfl]
    · have hk : k ∈ rest.map (fun q => q.1) := by
        rw [show k = (k, v).1 from rfl]
        exact List.mem_map_of_mem _ h
      have hnd' : (p.1 :: rest.map (fun q => q.1)).Nodup := by
        rw [List.map_cons] at hnd
        exact hnd
      obtain ⟨hnotin, hndrest⟩ := List.nodup_cons.mp hnd'
      have hp : p.1 ≠ k := fun hh => hnotin (hh ▸ hk)
      rw [if_neg hp]
      exact ih hndrest h

theorem assocFind_mem {α : Type} (l : List (String × α)) (k : String) (v : α)
    (h : assocFind l k = some v) : (k, v) ∈ l := by
  unfold assocFind at h
  cases hf : l.find? (fun q => q.1 == k) with
  | none => rw [hf] at h; cases h
  | some q =>
    rw [hf] at h
    have hm := List.mem_of_find?_eq_some hf
    have hq := List.find?_some hf
    cases q with
    | mk a b =>
      have h1 : a = k := by simpa using hq
      have h2 : b = v := by simpa using h
      rw [h1, h2] at hm
      exact hm

theorem keyAny_congr {α β : Type} (l : List (String × α)) (l' : List (String × β))
    (h : l.map (fun q => q.1) = l'.map (fun q => q.1)) (k : String) :
    l.any (fun q => q.1 == k) = l'.any (fun q => q.1 == k) := by
  rw [Bool.eq_iff_iff, keyAny_iff_mem, keyAny_iff_mem, h]

theorem addDeps_keys (tid : String) :
    ∀ (deps : List String) (acc : List (String × Int)),
      (addDeps tid acc deps).map (fun q => q.1) = acc.map (fun q => q.1) := by
  intro deps
  induction deps with
  | nil => intro acc; rfl
  | cons dep rest ih =>
    intro acc
    show (addDeps tid (if acc.any (fun q => q.1 == dep) = true then
        mapUpdate acc tid (fun v => v + 1) else acc) rest).map (fun q => q.1) =
      acc.map (fun q => q.1)
    by_cases hc : acc.any (fun q => q.1 == dep) = true
    · rw [if_pos hc, ih, mapUpdate_keys]
    · rw [if_neg hc, ih]

theorem addDeps_find_self (tid : String) :
    ∀ (deps : List String) (acc : List (String × Int)) (v : Int),
      assocFind acc tid = some v →
      assocFind (addDeps tid acc deps) tid =
        some (v + (deps.countP (fun dep => acc.any (fun q => q.1 == dep)) : Int)) := by
  intro deps
  induction deps with
  | nil =>
    intro acc v hv
    show assocFind acc tid = _
    rw [hv]
    simp
  | cons dep rest ih =>
    intro acc v hv
    show assocFind (addDeps tid (if acc.any (fun q => q.1 == dep) = true then
        mapUpdate acc tid (fun v => v + 1) else acc) rest) tid = _
    by_cases hc : acc.any (fun q => q.1 == dep) = true
    · rw [if_pos hc]
      have hv2 : assocFind (mapUpdate acc tid (fun v => v + 1)) tid =
          some (v + 1) := by
        rw [assocFind_mapUpdate, if_pos rfl, hv]
        rfl
      have hrec := ih (mapUpdate acc tid (fun v => v + 1)) (v + 1) hv2
      rw [hrec]
      have hcong : rest.countP
          (fun dep => (mapUpdate acc tid (fun v => v + 1)).any
            (fun q => q.1 == dep)) =
          rest.countP (fun dep => acc.any (fun q => q.1 == dep)) := by
        apply List.countP_congr
        intro d _
        rw [keyAny_congr _ _ (mapUpdate_keys acc tid _) d]
      rw [hcong]
      congr 1
      rw [List.countP_cons, hc, if_pos rfl]
      push_cast
      omega
    · rw [if_neg hc]
      have hrec := ih acc v hv
      rw [hrec]
      congr 1
      rw [List.countP_cons]
      have hc0 : (acc.any (fun q => q.1 == dep)) = false :=
        Bool.of_not_eq_true hc
      rw [hc0]
      simp

theorem addDeps_find_ne (tid : String) (k : String) (hk : k ≠ tid) :
    ∀ (deps : List String) (acc : List (String × Int)),
      assocFind (addDeps tid acc deps) k = assocFind acc k := by
  intro deps
  induction deps with
  | nil => intro acc; rfl
  | cons dep rest ih =>
    intro acc
    show assocFind (addDeps tid (if acc.any (fun q => q.1 == dep) = true then
        mapUpdate acc tid (fun v => v + 1) else acc) rest) k = _
    by_cases hc : acc.any (fun q => q.1 == dep) = true
    · rw [if_pos hc, ih, assocFind_mapUpdate, if_neg hk]
    · rw [if_neg hc, ih]

theorem keyAny_eq_mapAny {α : Type} (l : List (String × α)) (k : String) :
    l.any (fun q => q.1 == k) = (l.map (fun q => q.1)).any (fun x => x == k) := by
  induction l with
  | nil => rfl
  | cons p rest ih => simp_all [List.any_cons]

theorem lookupNode_eq_assocFind (g : TaskGraph) (k : String) :
    lookupNode g k = assocFind g.nodes k := rfl

theorem foldAddDeps_keys :
    ∀ (ns : List (String × TaskNode)) (acc : List (String × Int)),
      ((ns.foldl (fun a p => addDeps p.2.task_id a p.2.dependencies) acc).map
        (fun q => q.1)) = acc.map (fun q => q.1) := by
  intro ns
  induction ns with
  | nil => intro acc; rfl
  | cons p rest ih =>
    intro acc
    show ((rest.foldl _ (addDeps p.2.task_id acc p.2.dependencies)).map _) = _
    rw [ih, addDeps_keys]

theorem initInDegree_keys (g : TaskGraph) :
    (initInDegree g).map (fun q => q.1) = nodeKeys g := by
  unfold initInDegree
  rw [foldAddDeps_keys]
  rw [List.map_map]
  rfl

theorem foldAddDeps_find (K : List String) :
    ∀ (ns : List (String × TaskNode)) (acc : List (String × Int)) (k : String)
      (v : Int),
      acc.map (fun q => q.1) = K →
      assocFind acc k = some v →
      assocFind (ns.foldl (fun a p => addDeps p.2.task_id a p.2.dependencies) acc)
          k =
        some (v + ((ns.filter (fun p => p.2.task_id == k)).map
          (fun p => (p.2.dependencies.countP
            (fun dep => K.any (fun x => x == dep)) : Int))).sum) := by
  intro ns
  induction ns with
  | nil =>
    intro acc k v _ hv
    show assocFind acc k = _
    rw [hv]
    simp
  | cons p rest ih =>
    intro acc k v hK hv
    have hkeys1 : (addDeps p.2.task_id acc p.2.dependencies).map (fun q => q.1) = K := by
      rw [addDeps_keys]; exact hK
    have hcond : ∀ dep, (acc.any (fun q => q.1 == dep)) =
        (K.any (fun x => x == dep)) := by
      intro dep
      rw [keyAny_eq_mapAny, hK]
    show assocFind (rest.foldl _ (addDeps p.2.task_id acc p.2.dependencies)) k = _
    by_cases hpk : p.2.task_id = k
    · have hcnt : p.2.dependencies.countP (fun dep => acc.any (fun q => q.1 == dep)) =
          p.2.dependencies.countP (fun dep => K.any (fun x => x == dep)) :=
        List.countP_congr (fun d _ => by rw [hcond d])
      have hfind1 : assocFind (addDeps p.2.task_id acc p.2.dependencies) k =
          some (v + (p.2.dependencies.countP
            (fun dep => K.any (fun x => x == dep)) : Int)) := by
        rw [← hpk] at hv ⊢
        rw [addDeps_find_self p.2.task_id p.2.dependencies acc v hv, hcnt]
      have hrec := ih (addDeps p.2.task_id acc p.2.dependencies) k _ hkeys1 hfind1
      rw [hrec]
      rw [List.filter_cons, if_pos (by simpa using hpk)]
      rw [List.map_cons, List.sum_cons]
      congr 1
      omega
    · have hfind1 : assocFind (addDeps p.2.task_id acc p.2.dependencies) k =
          some v := by
        rw [addDeps_find_ne p.2.task_id k (fun h => hpk h.symm), hv]
      have hrec := ih (addDeps p.2.task_id acc p.2.dependencies) k v hkeys1 hfind1
      rw [hrec]
      rw [List.filter_cons, if_neg (by simpa using hpk)]

theorem base_find (g : TaskGraph) (k : String) (nk : TaskNode)
    (hk : lookupNode g k = some nk) :
    assocFind (g.nodes.map (fun p => (p.1, (0 : Int)))) k = some 0 := by
  have hmemk : k ∈ (g.nodes.map (fun p => (p.1, (0 : Int)))).map (fun q => q.1) := by
    rw [List.map_map]
    have : (k, nk) ∈ g.nodes := assocFind_mem _ _ _ hk
    exact List.mem_map_of_mem _ this
  have hsome := (assocFind_isSome_iff_mem _ k).mpr hmemk
  cases hf : assocFind (g.nodes.map (fun p => (p.1, (0 : Int)))) k with
  | none => rw [hf] at hsome; cases hsome
  | some v =>
    have hm := assocFind_mem _ _ _ hf
    rcases List.mem_map.mp hm with ⟨p, _, hp⟩
    have hv0 : v = 0 := by
      have := congrArg Prod.snd hp
      simpa using this.symm
    rw [hv0]

theorem filter_taskid_eq_aux (k : String) (nk : TaskNode) :
    ∀ (l : List (String × TaskNode)), (l.map (fun x => x.1)).Nodup →
      (∀ p ∈ l, p.2.task_id = p.1) → (k, nk) ∈ l →
      l.filter (fun p => p.2.task_id == k) = [(k, nk)] := by
  intro l
  induction l with
  | nil => intro _ _ hmem; cases hmem
  | cons p rest ih =>
    intro hnd hids hmem
    rw [List.map_cons] at hnd
    obtain ⟨hnotin, hndrest⟩ := List.nodup_cons.mp hnd
    have hidp : p.2.task_id = p.1 := hids p (List.mem_cons_self _ _)
    rw [List.filter_cons]
    by_cases hpk : p.1 = k
    · have hpnk : p = (k, nk) := by
        rcases List.mem_cons.mp hmem with h | h
        · exact h.symm
        · exfalso
          apply hnotin
          rw [hpk]
          rw [show k = (k, nk).1 from rfl]
          exact List.mem_map_of_mem _ h
      rw [if_pos (by simp [hidp, hpk])]
      rw [hpnk]
      congr 1
      have hrest : ∀ q ∈ rest, ¬ (q.2.task_id == k) = true := by
        intro q hq
        have hq2 : q.2.task_id = q.1 := hids q (List.mem_cons_of_mem _ hq)
        simp only [beq_iff_eq, hq2]
        intro hqk
        apply hnotin
        rw [hpk, ← hqk]
        exact List.mem_map_of_mem _ hq
      exact List.filter_eq_nil.mpr hrest
    · rw [if_neg (by simp [hidp, hpk])]
      have hmem' : (k, nk) ∈ rest := by
        rcases List.mem_cons.mp hmem with h | h
        · exfalso; apply hpk; rw [← h]
        · exact h
      exact ih hndrest (fun q hq => hids q (List.mem_cons_of_mem _ hq)) hmem'

theorem initInDegree_find (g : TaskGraph) (hwf : WF g) (k : String)
    (nk : TaskNode) (hk : lookupNode g k = some nk) :
    assocFind (initInDegree g) k = some (occOf g k) := by
  have hmem : (k, nk) ∈ g.nodes := assocFind_mem _ _ _ hk
  have hbase := base_find g k nk hk
  have hbk : (g.nodes.map (fun p => (p.1, (0 : Int)))).map (fun q => q.1) =
      nodeKeys g := by
    rw [List.map_map]; rfl
  have h := foldAddDeps_find (nodeKeys g) g.nodes
    (g.nodes.map (fun p => (p.1, (0 : Int)))) k 0 hbk hbase
  unfold initInDegree
  rw [h, filter_taskid_eq_aux k nk g.nodes hwf.1 hwf.2.2.1 hmem]
  have hocc : nk.dependencies.countP
      (fun dep => (nodeKeys g).any (fun x => x == dep)) = occOf g k := by
    unfold occOf depSet
    rw [hk]
    rw [← List.countP_eq_length_filter]
    apply List.countP_congr
    intro d _
    constructor
    · intro hd
      rcases List.any_eq_true.mp hd with ⟨x, hx, hxe⟩
      have hxd : x = d := by simpa using hxe
      subst hxd
      show (lookupNode g x).isSome = true
      rw [lookupNode_eq_assocFind]
      exact (assocFind_isSome_iff_mem g.nodes x).mpr hx
    · intro hd
      apply List.any_eq_true.mpr
      refine ⟨d, ?_, by simp⟩
      have hd2 : (lookupNode g d).isSome = true := hd
      rw [lookupNode_eq_assocFind] at hd2
      exact (assocFind_isSome_iff_mem g.nodes d).mp hd2
  simp only [List.map_cons, List.map_nil, List.sum_cons, List.sum_nil]
  rw [hocc]
  simp

/-- Sum of the stored in-degree values. -/
def sumVals (l : List (String × Int)) : Int := (l.map (fun q => q.2)).sum

theorem mapUpdate_sum_dec (k : String) :
    ∀ (l : List (String × Int)), (l.map (fun q => q.1)).Nodup →
      k ∈ l.map (fun q => q.1) →
      sumVals (mapUpdate l k (fun v => v - 1)) = sumVals l - 1 := by
  intro l
  induction l with
  | nil => intro _ hk; cases hk
  | cons p rest ih =>
    intro hnd hk
    rw [List.map_cons] at hnd
    obtain ⟨hnotin, hndrest⟩ := List.nodup_cons.mp hnd
    by_cases hp : p.1 = k
    · have hrest : k ∉ rest.map (fun q => q.1) := by
        rw [← hp]; exact hnotin
      show sumVals ((if (p.1 == k) = true then (p.1, p.2 - 1) else p) ::
        mapUpdate rest k (fun v => v - 1)) = _
      rw [if_pos (by simpa using hp), mapUpdate_not_mem rest k _ hrest]
      show (p.2 - 1) + sumVals rest = (p.2 + sumVals rest) - 1
      omega
    · have hkrest : k ∈ rest.map (fun q => q.1) := by
        rcases List.mem_cons.mp hk with h | h
        · exact absurd h.symm hp
        · exact h
      show sumVals ((if (p.1 == k) = true then (p.1, p.2 - 1) else p) ::
        mapUpdate rest k (fun v => v - 1)) = _
      rw [if_neg (by simpa using hp)]
      show p.2 + sumVals (mapUpdate rest k (fun v => v - 1)) = (p.2 + sumVals rest) - 1
      rw [ih hndrest hkrest]
      omega

theorem processDependents_spec :
    ∀ (ds : List String) (indeg : List (String × Int)) (queue : List String),
      ds.Nodup → (∀ d ∈ ds, d ∈ indeg.map (fun q => q.1)) →
      (indeg.map (fun q => q.1)).Nodup →
      ((processDependents indeg queue ds).1.map (fun q => q.1) =
        indeg.map (fun q => q.1)) ∧
      (∀ k, assocFind (processDependents indeg queue ds).1 k =
        (if k ∈ ds then (assocFind indeg k).map (fun v => v - 1)
         else assocFind indeg k)) ∧
      ((processDependents indeg queue ds).2 =
        queue ++ ds.filter (fun d => assocFind indeg d == some 1)) ∧
      (sumVals (processDependents indeg queue ds).1 =
        sumVals indeg - ds.length) := by
  intro ds
  induction ds with
  | nil =>
    intro indeg queue _ _ _
    refine ⟨rfl, fun k => by rw [if_neg (by simp)]; rfl,
      by simp [processDependents], by
        show sumVals indeg = sumVals indeg - 0
        omega⟩
  | cons d rest ih =>
    intro indeg queue hnd hsub hkeysnd
    obtain ⟨hdnotin, hndrest⟩ := List.nodup_cons.mp hnd
    have hdmem : d ∈ indeg.map (fun q => q.1) := hsub d (List.mem_cons_self _ _)
    have hany : indeg.any (fun q => q.1 == d) = true :=
      (keyAny_iff_mem indeg d).mpr hdmem
    have hsome := (assocFind_isSome_iff_mem indeg d).mpr hdmem
    obtain ⟨v, hv⟩ : ∃ v, assocFind indeg d = some v := by
      cases hf : assocFind indeg d with
      | none => rw [hf] at hsome; cases hsome
      | some v => exact ⟨v, rfl⟩
    have hself : assocFind (mapUpdate indeg d (fun v => v - 1)) d = some (v - 1) := by
      rw [assocFind_mapUpdate, if_pos rfl, hv]
      rfl
    have hstep : processDependents indeg queue (d :: rest) =
        processDependents (mapUpdate indeg d (fun v => v - 1))
          (if v - 1 = 0 then queue ++ [d] else queue) rest := by
      show (rest.foldl _ (if indeg.any (fun q => q.1 == d) = true then _ else _)) = _
      rw [if_pos hany]
      simp only [hself]
      by_cases hv1 : v - 1 = 0
      · rw [if_pos hv1]
        rw [if_pos (by simp [hv1])]
        rfl
      · rw [if_neg hv1]
        rw [if_neg (by simp [hv1])]
        rfl
    have hkeys2 : (mapUpdate indeg d (fun v => v - 1)).map (fun q => q.1) =
        indeg.map (fun q => q.1) := mapUpdate_keys _ _ _
    have hsub2 : ∀ x ∈ rest, x ∈ (mapUpdate indeg d (fun v => v - 1)).map (fun q => q.1) := by
      intro x hx
      rw [hkeys2]
      exact hsub x (List.mem_cons_of_mem _ hx)
    have hkeysnd2 : ((mapUpdate indeg d (fun v => v - 1)).map (fun q => q.1)).Nodup := by
      rw [hkeys2]; exact hkeysnd
    obtain ⟨ihkeys, ihfind, ihqueue, ihsum⟩ :=
      ih (mapUpdate indeg d (fun v => v - 1))
        (if v - 1 = 0 then queue ++ [d] else queue) hndrest hsub2 hkeysnd2
    refine ⟨?_, ?_, ?_, ?_⟩
    · rw [hstep, ihkeys, hkeys2]
    · intro k
      rw [hstep, ihfind k]
      by_cases hk : k ∈ rest
      · rw [if_pos hk, if_pos (List.mem_cons_of_mem _ hk)]
        have hkd : k ≠ d := fun h => hdnotin (h ▸ hk)
        rw [assocFind_mapUpdate, if_neg hkd]
      · rw [if_neg hk]
        by_cases hkd : k = d
        · subst hkd
          rw [if_pos (List.mem_cons_self _ _), assocFind_mapUpdate, if_pos rfl]
        · rw [if_neg (by
            intro hmem
            rcases List.mem_cons.mp hmem with h | h
            · exact hkd h
            · exact hk h)]
          rw [assocFind_mapUpdate, if_neg hkd]
    · rw [hstep, ihqueue]
      have hfiltereq : rest.filter
          (fun x => assocFind (mapUpdate indeg d (fun v => v - 1)) x == some 1) =
          rest.filter (fun x => assocFind indeg x == some 1) := by
        apply List.filter_congr
        intro x hx
        have hxd : x ≠ d := fun h => hdnotin (h ▸ hx)
        rw [assocFind_mapUpdate, if_neg hxd]
      rw [hfiltereq, List.filter_cons]
      by_cases hv1 : v - 1 = 0
      · rw [if_pos hv1]
        rw [if_pos (by rw [hv]; simp; omega)]
        simp
      · rw [if_neg hv1]
        rw [if_neg (by rw [hv]; simp; omega)]
    · rw [hstep, ihsum, mapUpdate_sum_dec d indeg hkeysnd hdmem]
      show _ = sumVals indeg - (rest.length + 1)
      omega

theorem sumVals_nonneg (l : List (String × Int)) (h : ∀ q ∈ l, 0 ≤ q.2) :
    0 ≤ sumVals l := by
  induction l with
  | nil => exact le_refl 0
  | cons p rest ih =>
    show 0 ≤ p.2 + sumVals rest
    have h1 := h p (List.mem_cons_self _ _)
    have h2 := ih (fun q hq => h q (List.mem_cons_of_mem _ hq))
    omega

theorem filter_orr_length (tid : String) (q : String → Bool) :
    ∀ (S : List String), S.Nodup →
      (S.filter (fun d => q d || decide (d = tid))).length =
        (S.filter q).length + (if tid ∈ S ∧ q tid = false then 1 else 0) := by
  intro S
  induction S with
  | nil => intro _; simp
  | cons s rest ih =>
    intro hnd
    obtain ⟨hnotin, hndrest⟩ := List.nodup_cons.mp hnd
    rw [List.filter_cons, List.filter_cons]
    by_cases hq : q s = true
    · rw [if_pos (by simp [hq]), if_pos hq]
      simp only [List.length_cons]
      rw [ih hndrest]
      by_cases hst : s = tid
      · have h1 : ¬ (tid ∈ s :: rest ∧ q tid = false) := by
          rintro ⟨_, hqf⟩
          rw [← hst, hq] at hqf
          cases hqf
        have h2 : ¬ (tid ∈ rest ∧ q tid = false) := by
          rintro ⟨hm, _⟩
          exact hnotin (hst ▸ hm)
        rw [if_neg h1, if_neg h2]
      · have hiff : (tid ∈ rest ∧ q tid = false) ↔ (tid ∈ s :: rest ∧ q tid = false) := by
          constructor
          · rintro ⟨hm, hf⟩; exact ⟨List.mem_cons_of_mem _ hm, hf⟩
          · rintro ⟨hm, hf⟩
            rcases List.mem_cons.mp hm with h | h
            · exact absurd h.symm hst
            · exact ⟨h, hf⟩
        by_cases hc : tid ∈ rest ∧ q tid = false
        · rw [if_pos hc, if_pos (hiff.mp hc)]
        · rw [if_neg hc, if_neg (fun hh => hc (hiff.mpr hh))]
    · have hqf : q s = false := Bool.of_not_eq_true hq
      by_cases hst : s = tid
      · subst hst
        rw [if_pos (by simp), if_neg (by simp [hqf])]
        simp only [List.length_cons]
        rw [ih hndrest]
        rw [if_neg (fun hh => hnotin hh.1),
          if_pos ⟨List.mem_cons_self _ _, hqf⟩]
      · rw [if_neg (by simp [hqf, hst]), if_neg (by simp [hqf])]
        rw [ih hndrest]
        have hiff : (tid ∈ rest ∧ q tid = false) ↔ (tid ∈ s :: rest ∧ q tid = false) := by
          constructor
          · rintro ⟨hm, hf⟩; exact ⟨List.mem_cons_of_mem _ hm, hf⟩
          · rintro ⟨hm, hf⟩
            rcases List.mem_cons.mp hm with h | h
            · exact absurd h.symm hst
            · exact ⟨h, hf⟩
        by_cases hc : tid ∈ rest ∧ q tid = false
        · rw [if_pos hc, if_pos (hiff.mp hc)]
        · rw [if_neg hc, if_neg (fun hh => hc (hiff.mpr hh))]

theorem emittedDeps_append (g : TaskGraph) (order : List String) (tid : String)
    (k : String) :
    emittedDeps g (order ++ [tid]) k =
      emittedDeps g order k + (if tid ∈ depSet g k ∧ tid ∉ order then 1 else 0) := by
  unfold emittedDeps
  have hcong : (depSet g k).dedup.filter (fun d => decide (d ∈ order ++ [tid])) =
      (depSet g k).dedup.filter
        (fun d => decide (d ∈ order) || decide (d = tid)) := by
    apply List.filter_congr
    intro d _
    simp [List.mem_append]
  rw [hcong, filter_orr_length tid _ _ (List.nodup_dedup _)]
  congr 1
  by_cases hc : tid ∈ depSet g k ∧ tid ∉ order
  · rw [if_pos hc, if_pos ⟨List.mem_dedup.mpr hc.1, by simp [hc.2]⟩]
  · rw [if_neg hc, if_neg (by
      rintro ⟨hm, hf⟩
      exact hc ⟨List.mem_dedup.mp hm, by simpa using hf⟩)]

theorem emittedDeps_le_occ (g : TaskGraph) (order : List String) (k : String) :
    emittedDeps g order k ≤ occOf g k := by
  unfold emittedDeps occOf
  calc ((depSet g k).dedup.filter (fun d => decide (d ∈ order))).length
      ≤ (depSet g k).dedup.length := List.length_filter_le _ _
    _ ≤ (depSet g k).length := (List.dedup_sublist _).length_le

theorem deficit_zero (g : TaskGraph) (order : List String) (k : String)
    (h : emittedDeps g order k = occOf g k) :
    ∀ d ∈ depSet g k, d ∈ order := by
  intro d hd
  have h1 : ((depSet g k).dedup.filter (fun d => decide (d ∈ order))).length ≤
      (depSet g k).dedup.length := List.length_filter_le _ _
  have h2 : (depSet g k).dedup.length ≤ (depSet g k).length :=
    (List.dedup_sublist _).length_le
  unfold emittedDeps occOf at h
  have heq : ((depSet g k).dedup.filter (fun d => decide (d ∈ order))).length =
      (depSet g k).dedup.length := by omega
  have hfeq : (depSet g k).dedup.filter (fun d => decide (d ∈ order)) =
      (depSet g k).dedup := (List.filter_sublist _).eq_of_length heq
  have hmem : d ∈ (depSet g k).dedup.filter (fun d => decide (d ∈ order)) := by
    rw [hfeq]
    exact List.mem_dedup.mpr hd
  have := List.of_mem_filter hmem
  simpa using this

theorem deficit_pos (g : TaskGraph) (order : List String) (k : String)
    (d0 : String) (hd0 : d0 ∈ depSet g k) (hno : d0 ∉ order) :
    emittedDeps g order k < (depSet g k).dedup.length := by
  unfold emittedDeps
  have hsub : ((depSet g k).dedup.filter (fun d => decide (d ∈ order))).Sublist
      (depSet g k).dedup := List.filter_sublist _
  have hle := hsub.length_le
  rcases Nat.lt_or_ge (((depSet g k).dedup.filter
    (fun d => decide (d ∈ order))).length) ((depSet g k).dedup.length) with h | h
  · exact h
  · exfalso
    have heq := hsub.eq_of_length (by omega)
    have hmem : d0 ∈ (depSet g k).dedup.filter (fun d => decide (d ∈ order)) := by
      rw [heq]
      exact List.mem_dedup.mpr hd0
    have := List.of_mem_filter hmem
    exact hno (by simpa using this)

theorem mem_nodeKeys_iff_isSome (g : TaskGraph) (d : String) :
    d ∈ nodeKeys g ↔ (lookupNode g d).isSome = true :=
  (assocFind_isSome_iff_mem g.nodes d).symm

theorem wf_dependentsOf_nodup (g : TaskGraph) (hwf : WF g) (t : String) :
    (dependentsOf g t).Nodup := by
  unfold dependentsOf
  cases hf : g.dependents.find? (fun p => p.1 == t) with
  | none => exact List.nodup_nil
  | some q =>
    show q.2.Nodup
    exact hwf.2.2.2.1 q (List.mem_of_find?_eq_some hf)

theorem wf_dependentsOf_sub (g : TaskGraph) (hwf : WF g) (t : String) :
    ∀ d ∈ dependentsOf g t, ∃ nd, lookupNode g d = some nd ∧
      t ∈ nd.dependencies := by
  intro d hd
  unfold dependentsOf at hd
  cases hf : g.dependents.find? (fun p => p.1 == t) with
  | none => rw [hf] at hd; cases hd
  | some q =>
    rw [hf] at hd
    have hd2 : d ∈ q.2 := hd
    obtain ⟨p, hp, hp1, hp2⟩ := hwf.2.2.2.2.1 q (List.mem_of_find?_eq_some hf) d hd2
    have hq1 : q.1 = t := by
      have := List.find?_some hf
      simpa using this
    refine ⟨p.2, ?_, by rw [← hq1]; exact hp2⟩
    rw [lookupNode_eq_assocFind, ← hp1]
    exact mem_nodup_assocFind g.nodes p.1 p.2 hwf.1 (by
      cases p with
      | mk a b => exact hp)

theorem wf_mem_dependentsOf (g : TaskGraph) (hwf : WF g) (t d : String)
    (nd : TaskNode) (hlook : lookupNode g d = some nd)
    (hdep : t ∈ nd.dependencies) : d ∈ dependentsOf g t := by
  have hmem : (d, nd) ∈ g.nodes := assocFind_mem _ _ _ hlook
  exact hwf.2.2.2.2.2 (d, nd) hmem t hdep

theorem mem_dependentsOf_iff_depSet (g : TaskGraph) (hwf : WF g)
    (tid : String) (htid : (lookupNode g tid).isSome = true) (k : String) :
    k ∈ dependentsOf g tid ↔ tid ∈ depSet g k := by
  constructor
  · intro hk
    obtain ⟨nd, hnd, hdep⟩ := wf_dependentsOf_sub g hwf tid k hk
    unfold depSet
    rw [hnd]
    exact List.mem_filter.mpr ⟨hdep, by simpa using htid⟩
  · intro htk
    unfold depSet at htk
    cases hlk : lookupNode g k with
    | none => rw [hlk] at htk; cases htk
    | some nk =>
      rw [hlk] at htk
      exact wf_mem_dependentsOf g hwf tid k nk hlk (List.mem_filter.mp htk).1

theorem wf_dependentsOf_keys (g : TaskGraph) (hwf : WF g) (t : String) :
    ∀ d ∈ dependentsOf g t, d ∈ nodeKeys g := by
  intro d hd
  obtain ⟨nd, hnd, _⟩ := wf_dependentsOf_sub g hwf t d hd
  exact (mem_nodeKeys_iff_isSome g d).mpr (by rw [hnd]; rfl)

theorem depSet_sub_keys (g : TaskGraph) (a : String) :
    ∀ d ∈ depSet g a, d ∈ nodeKeys g := by
  intro d hd
  unfold depSet at hd
  cases hlk : lookupNode g a with
  | none => rw [hlk] at hd; cases hd
  | some n =>
    rw [hlk] at hd
    have := (List.mem_filter.mp hd).2
    exact (mem_nodeKeys_iff_isSome g d).mpr (by simpa using this)

theorem depsBefore_append (g : TaskGraph) (a : String) :
    ∀ (order seen : List String), DepsBefore g seen order →
      (∀ d ∈ depSet g a, d ∈ seen ∨ d ∈ order) →
      DepsBefore g seen (order ++ [a]) := by
  intro order
  induction order with
  | nil =>
    intro seen _ hsub
    refine ⟨?_, trivial⟩
    intro d hd
    rcases hsub d hd with h | h
    · exact h
    · cases h
  | cons b rest ih =>
    intro seen hdb hsub
    obtain ⟨hb, hrest⟩ := hdb
    refine ⟨hb, ?_⟩
    apply ih (seen ++ [b]) hrest
    intro d hd
    rcases hsub d hd with h | h
    · exact Or.inl (List.mem_append.mpr (Or.inl h))
    · rcases List.mem_cons.mp h with h2 | h2
      · exact Or.inl (List.mem_append.mpr (Or.inr (by rw [h2]; exact List.mem_singleton_self _)))
      · exact Or.inr h2

theorem depsBefore_mem (g : TaskGraph) :
    ∀ (order seen : List String), DepsBefore g seen order →
      ∀ a ∈ order, ∀ d ∈ depSet g a, d ∈ seen ∨ d ∈ order := by
  intro order
  induction order with
  | nil => intro seen _ a ha; cases ha
  | cons b rest ih =>
    intro seen hdb a ha d hd
    obtain ⟨hb, hrest⟩ := hdb
    rcases List.mem_cons.mp ha with h | h
    · subst h
      exact Or.inl (hb d hd)
    · rcases ih (seen ++ [b]) hrest a h d hd with h2 | h2
      · rcases List.mem_append.mp h2 with h3 | h3
        · exact Or.inl h3
        · right
          have hdb2 : d = b := by simpa using h3
          rw [hdb2]
          exact List.mem_cons_self _ _
      · exact Or.inr (List.mem_cons_of_mem _ h2)

theorem depsBefore_split (g : TaskGraph) :
    ∀ (order seen o1 : List String) (a : String) (o2 : List String),
      DepsBefore g seen order → order = o1 ++ a :: o2 →
      ∀ d ∈ depSet g a, d ∈ seen ∨ d ∈ o1 := by
  intro order
  induction order with
  | nil =>
    intro seen o1 a o2 _ heq
    exact absurd heq (by simp)
  | cons b rest ih =>
    intro seen o1 a o2 hdb heq d hd
    obtain ⟨hb, hrest⟩ := hdb
    cases o1 with
    | nil =>
      have hba : b = a := by simpa using congrArg (fun l => l.headI) heq
      subst hba
      exact Or.inl (hb d hd)
    | cons c o1' =>
      have hbc : b = c := by simpa using congrArg (fun l => l.headI) heq
      have hrest2 : rest = o1' ++ a :: o2 := by
        have := congrArg List.tail heq
        simpa using this
      rcases ih (seen ++ [b]) o1' a o2 hrest hrest2 d hd with h | h
      · rcases List.mem_append.mp h with h2 | h2
        · exact Or.inl h2
        · right
          have : d = b := by simpa using h2
          rw [this, hbc]
          exact List.mem_cons_self _ _
      · exact Or.inr (List.mem_cons_of_mem _ h)

/-- Loop invariant of Kahn's algorithm: the in-degree dict stores the
number of known-dependency occurrences not yet accounted for, the
queue holds unemitted tasks whose dependencies have all been emitted,
the order is duplicate-free and respects dependencies, and every
unreached task has a strictly positive count. -/
structure KahnInv (g : TaskGraph) (indeg : List (String × Int))
    (queue order : List String) : Prop where
  keys_eq : indeg.map (fun q => q.1) = nodeKeys g
  deg : ∀ k v, assocFind indeg k = some v →
    v = (occOf g k : Int) - (emittedDeps g order k : Int)
  order_nodup : order.Nodup
  queue_nodup : queue.Nodup
  disj : ∀ a ∈ queue, a ∉ order
  order_sub : ∀ a ∈ order, a ∈ nodeKeys g
  queue_sub : ∀ a ∈ queue, a ∈ nodeKeys g
  queue_deps : ∀ a ∈ queue, ∀ d ∈ depSet g a, d ∈ order
  respects : DepsBefore g [] order
  queue_zero : ∀ a ∈ queue, assocFind indeg a = some 0
  unqueued : ∀ a ∈ nodeKeys g, a ∉ order → a ∉ queue →
    ∀ v, assocFind indeg a = some v → v ≠ 0

theorem kahn_step (g : TaskGraph) (hwf : WF g) (indeg : List (String × Int))
    (tid : String) (rest order : List String)
    (inv : KahnInv g indeg (tid :: rest) order) :
    KahnInv g (processDependents indeg rest (dependentsOf g tid)).1
      (processDependents indeg rest (dependentsOf g tid)).2 (order ++ [tid]) ∧
    ((processDependents indeg rest (dependentsOf g tid)).2.length : Int) +
      sumVals (processDependents indeg rest (dependentsOf g tid)).1 ≤
      (((tid :: rest).length : Nat) : Int) + sumVals indeg - 1 := by
  have htidmem : tid ∈ nodeKeys g := inv.queue_sub tid (List.mem_cons_self _ _)
  have htidsome : (lookupNode g tid).isSome = true :=
    (mem_nodeKeys_iff_isSome g tid).mp htidmem
  have hkeysnd : (indeg.map (fun q => q.1)).Nodup := by
    rw [inv.keys_eq]; exact hwf.1
  have hds_nodup : (dependentsOf g tid).Nodup := wf_dependentsOf_nodup g hwf tid
  have hds_keys : ∀ d ∈ dependentsOf g tid, d ∈ nodeKeys g :=
    wf_dependentsOf_keys g hwf tid
  have hds_sub : ∀ d ∈ dependentsOf g tid, d ∈ indeg.map (fun q => q.1) := by
    intro d hd; rw [inv.keys_eq]; exact hds_keys d hd
  obtain ⟨pdkeys, pdfind, pdqueue, pdsum⟩ :=
    processDependents_spec (dependentsOf g tid) indeg rest hds_nodup hds_sub hkeysnd
  have hdsiff : ∀ k, k ∈ dependentsOf g tid ↔ tid ∈ depSet g k :=
    mem_dependentsOf_iff_depSet g hwf tid htidsome
  have htid_not_order : tid ∉ order := inv.disj tid (List.mem_cons_self _ _)
  have htid_not_rest : tid ∉ rest := (List.nodup_cons.mp inv.queue_nodup).1
  have hrest_nodup : rest.Nodup := (List.nodup_cons.mp inv.queue_nodup).2
  have hdepstid : ∀ d ∈ depSet g tid, d ∈ order :=
    inv.queue_deps tid (List.mem_cons_self _ _)
  have hds_order : ∀ k ∈ dependentsOf g tid, k ∉ order := by
    intro k hk hko
    have htk : tid ∈ depSet g k := (hdsiff k).mp hk
    rcases depsBefore_mem g order [] inv.respects k hko tid htk with h | h
    · cases h
    · exact htid_not_order h
  have htid_not_ds : tid ∉ dependentsOf g tid := by
    intro h
    exact htid_not_order (hdepstid tid ((hdsiff tid).mp h))
  have hds_rest : ∀ k ∈ dependentsOf g tid, k ∉ rest := by
    intro k hk hkr
    have htk : tid ∈ depSet g k := (hdsiff k).mp hk
    exact htid_not_order (inv.queue_deps k (List.mem_cons_of_mem _ hkr) tid htk)
  have horder_nodup' : (order ++ [tid]).Nodup := by
    apply List.Nodup.append inv.order_nodup (List.nodup_singleton _)
    rw [List.disjoint_left]
    intro a ha hb
    have : a = tid := by simpa using hb
    exact htid_not_order (this ▸ ha)
  have hdeg' : ∀ k v', assocFind
      (processDependents indeg rest (dependentsOf g tid)).1 k = some v' →
      v' = (occOf g k : Int) - (emittedDeps g (order ++ [tid]) k : Int) := by
    intro k v' hv'
    rw [pdfind k] at hv'
    by_cases hk : k ∈ dependentsOf g tid
    · rw [if_pos hk] at hv'
      cases hfk : assocFind indeg k with
      | none => rw [hfk] at hv'; cases hv'
      | some v =>
        rw [hfk] at hv'
        have hvv : v' = v - 1 := by simpa using hv'.symm
        have hdk := inv.deg k v hfk
        have htk : tid ∈ depSet g k := (hdsiff k).mp hk
        rw [emittedDeps_append, if_pos ⟨htk, htid_not_order⟩]
        push_cast
        omega
    · rw [if_neg hk] at hv'
      have hdk := inv.deg k v' hv'
      have hntk : ¬ (tid ∈ depSet g k ∧ tid ∉ order) := by
        rintro ⟨htk, _⟩
        exact hk ((hdsiff k).mpr htk)
      rw [emittedDeps_append, if_neg hntk]
      push_cast
      omega
  have hpushed_sub : ∀ a ∈ (dependentsOf g tid).filter
      (fun d => assocFind indeg d == some 1), a ∈ dependentsOf g tid :=
    fun a ha => List.mem_of_mem_filter ha
  have hrest_zero : ∀ a ∈ rest, assocFind indeg a = some 0 :=
    fun a ha => inv.queue_zero a (List.mem_cons_of_mem _ ha)
  have hrest_not_ds : ∀ a ∈ rest, a ∉ dependentsOf g tid :=
    fun a ha h => hds_rest a h ha
  have hpushed_find : ∀ a ∈ (dependentsOf g tid).filter
      (fun d => assocFind indeg d == some 1),
      assocFind (processDependents indeg rest (dependentsOf g tid)).1 a =
        some 0 := by
    intro a ha
    have ha1 : assocFind indeg a = some 1 := by
      have := List.of_mem_filter ha
      simpa using this
    rw [pdfind a, if_pos (hpushed_sub a ha), ha1]
    rfl
  have hrest_find : ∀ a ∈ rest,
      assocFind (processDependents indeg rest (dependentsOf g tid)).1 a =
        some 0 := by
    intro a ha
    rw [pdfind a, if_neg (hrest_not_ds a ha)]
    exact hrest_zero a ha
  refine ⟨⟨?_, hdeg', horder_nodup', ?_, ?_, ?_, ?_, ?_, ?_, ?_, ?_⟩, ?_⟩
  · rw [pdkeys, inv.keys_eq]
  · rw [pdqueue]
    apply List.Nodup.append hrest_nodup (List.Nodup.filter _ hds_nodup)
    rw [List.disjoint_left]
    intro a ha hb
    exact hrest_not_ds a ha (hpushed_sub a hb)
  · intro a ha hao
    rw [pdqueue] at ha
    rcases List.mem_append.mp ha with h | h
    · rcases List.mem_append.mp hao with h2 | h2
      · exact inv.disj a (List.mem_cons_of_mem _ h) h2
      · have : a = tid := by simpa using h2
        exact htid_not_rest (this ▸ h)
    · have hads := hpushed_sub a h
      rcases List.mem_append.mp hao with h2 | h2
      · exact hds_order a hads h2
      · have : a = tid := by simpa using h2
        exact htid_not_ds (this ▸ hads)
  · intro a ha
    rcases List.mem_append.mp ha with h | h
    · exact inv.order_sub a h
    · have : a = tid := by simpa using h
      exact this ▸ htidmem
  · intro a ha
    rw [pdqueue] at ha
    rcases List.mem_append.mp ha with h | h
    · exact inv.queue_sub a (List.mem_cons_of_mem _ h)
    · exact hds_keys a (hpushed_sub a h)
  · intro a ha d hd
    rw [pdqueue] at ha
    rcases List.mem_append.mp ha with h | h
    · exact List.mem_append.mpr (Or.inl
        (inv.queue_deps a (List.mem_cons_of_mem _ h) d hd))
    · have hfind0 := hpushed_find a h
      have hdeg0 := hdeg' a 0 hfind0
      have hemeq : emittedDeps g (order ++ [tid]) a = occOf g a := by
        have hle := emittedDeps_le_occ g (order ++ [tid]) a
        omega
      exact deficit_zero g (order ++ [tid]) a hemeq d hd
  · apply depsBefore_append g tid order [] inv.respects
    intro d hd
    exact Or.inr (hdepstid d hd)
  · intro a ha
    rw [pdqueue] at ha
    rcases List.mem_append.mp ha with h | h
    · exact hrest_find a h
    · exact hpushed_find a h
  · intro a hamem hao haq v' hv'
    have hanotrest : a ∉ rest := by
      intro h
      apply haq
      rw [pdqueue]
      exact List.mem_append.mpr (Or.inl h)
    have hanotpushed : a ∉ (dependentsOf g tid).filter
        (fun d => assocFind indeg d == some 1) := by
      intro h
      apply haq
      rw [pdqueue]
      exact List.mem_append.mpr (Or.inr h)
    have hanottid : a ≠ tid := by
      intro h
      apply hao
      exact List.mem_append.mpr (Or.inr (by
        rw [h]
        exact List.mem_singleton_self _))
    have hanotorder : a ∉ order := fun h => hao (List.mem_append.mpr (Or.inl h))
    rw [pdfind a] at hv'
    by_cases hk : a ∈ dependentsOf g tid
    · rw [if_pos hk] at hv'
      cases hfk : assocFind indeg a with
      | none => rw [hfk] at hv'; cases hv'
      | some v =>
        rw [hfk] at hv'
        have hvv : v' = v - 1 := by simpa using hv'.symm
        have hvne1 : v ≠ 1 := by
          intro h
          apply hanotpushed
          apply List.mem_filter.mpr
          refine ⟨hk, ?_⟩
          rw [hfk, h]
          rfl
        omega
    · rw [if_neg hk] at hv'
      have hanotqueue : a ∉ tid :: rest := by
        intro h
        rcases List.mem_cons.mp h with h2 | h2
        · exact hanottid h2
        · exact hanotrest h2
      exact inv.unqueued a hamem hanotorder hanotqueue v' hv'
  · rw [pdqueue, pdsum]
    have hpl : ((dependentsOf g tid).filter
        (fun d => assocFind indeg d == some 1)).length ≤
        (dependentsOf g tid).length := List.length_filter_le _ _
    rw [List.length_append]
    simp only [List.length_cons]
    push_cast
    omega

theorem kahnInv_sum_nonneg (g : TaskGraph) (hwf : WF g)
    (indeg : List (String × Int)) (queue order : List String)
    (inv : KahnInv g indeg queue order) : 0 ≤ sumVals indeg := by
  apply sumVals_nonneg
  intro q hq
  have hkeysnd : (indeg.map (fun p => p.1)).Nodup := by
    rw [inv.keys_eq]; exact hwf.1
  cases q with
  | mk k v =>
    have hfind : assocFind indeg k = some v := mem_nodup_assocFind _ _ _ hkeysnd hq
    have hdeg := inv.deg k v hfind
    have hle := emittedDeps_le_occ g order k
    show 0 ≤ v
    omega

theorem kahnGo_spec (g : TaskGraph) (hwf : WF g) :
    ∀ (fuel : Nat) (indeg : List (String × Int)) (queue order : List String),
      KahnInv g indeg queue order →
      ((queue.length : Int) + sumVals indeg ≤ (fuel : Int)) →
      KahnInv g (kahnGo g fuel indeg queue order).2 []
        (kahnGo g fuel indeg queue order).1 ∧
      (∀ C : List String,
        (∀ c ∈ C, ∃ c', c' ∈ C ∧ c' ∈ depSet g c) →
        (∀ c ∈ C, c ∉ order ∧ c ∉ queue) →
        ∀ c ∈ C, c ∉ (kahnGo g fuel indeg queue order).1) := by
  intro fuel
  induction fuel with
  | zero =>
    intro indeg queue order inv hfuel
    have hsum := kahnInv_sum_nonneg g hwf indeg queue order inv
    have hlen : queue.length = 0 := by omega
    have hq : queue = [] := List.length_eq_zero.mp hlen
    subst hq
    exact ⟨inv, fun C _ hCinv c hc => (hCinv c hc).1⟩
  | succ fuel ih =>
    intro indeg queue order inv hfuel
    cases queue with
    | nil =>
      exact ⟨inv, fun C _ hCinv c hc => (hCinv c hc).1⟩
    | cons tid rest =>
      obtain ⟨inv', hmeas⟩ := kahn_step g hwf indeg tid rest order inv
      have hunfold : kahnGo g (fuel + 1) indeg (tid :: rest) order =
          kahnGo g fuel (processDependents indeg rest (dependentsOf g tid)).1
            (processDependents indeg rest (dependentsOf g tid)).2
            (order ++ [tid]) := rfl
      have hfuel' : (((processDependents indeg rest
          (dependentsOf g tid)).2.length : Int) +
          sumVals (processDependents indeg rest (dependentsOf g tid)).1 ≤
          (fuel : Int)) := by
        have hlen : ((tid :: rest).length : Int) = (rest.length : Int) + 1 := by
          simp
        push_cast at hfuel hmeas ⊢
        omega
      obtain ⟨hinvF, hCF⟩ := ih _ _ _ inv' hfuel'
      rw [hunfold]
      refine ⟨hinvF, ?_⟩
      intro C hC hCinv
      have hCorder' : ∀ c ∈ C, c ∉ order ++ [tid] := by
        intro c hc hmem
        rcases List.mem_append.mp hmem with h | h
        · exact (hCinv c hc).1 h
        · have hct : c = tid := by simpa using h
          exact (hCinv c hc).2 (hct ▸ List.mem_cons_self _ _)
      have hCqueue' : ∀ c ∈ C,
          c ∉ (processDependents indeg rest (dependentsOf g tid)).2 := by
        intro c hc hmem
        have hdeps := inv'.queue_deps c hmem
        obtain ⟨c', hc', hc'dep⟩ := hC c hc
        exact hCorder' c' hc' (hdeps c' hc'dep)
      exact hCF C hC (fun c hc => ⟨hCorder' c hc, hCqueue' c hc⟩)

theorem emittedDeps_nil (g : TaskGraph) (k : String) :
    emittedDeps g [] k = 0 := by
  simp [emittedDeps]

theorem initInDegree_nodup_keys (g : TaskGraph) (hwf : WF g) :
    ((initInDegree g).map (fun q => q.1)).Nodup := by
  rw [initInDegree_keys]; exact hwf.1

theorem initInDegree_deg (g : TaskGraph) (hwf : WF g) (k : String) (v : Int)
    (hv : assocFind (initInDegree g) k = some v) : v = (occOf g k : Int) := by
  have hks : k ∈ nodeKeys g := by
    rw [← initInDegree_keys g]
    exact (assocFind_isSome_iff_mem _ k).mp (by rw [hv]; rfl)
  have hsome := (mem_nodeKeys_iff_isSome g k).mp hks
  cases hlk : lookupNode g k with
  | none => rw [hlk] at hsome; cases hsome
  | some nk =>
    have := initInDegree_find g hwf k nk hlk
    rw [this] at hv
    exact (by simpa using hv.symm)

theorem init_inv (g : TaskGraph) (hwf : WF g) :
    KahnInv g (initInDegree g)
      (((initInDegree g).filter (fun q => q.2 == 0)).map (fun q => q.1)) [] := by
  have hkeysnd := initInDegree_nodup_keys g hwf
  have hqmem : ∀ a, a ∈ ((initInDegree g).filter
      (fun q => q.2 == 0)).map (fun q => q.1) →
      assocFind (initInDegree g) a = some 0 := by
    intro a ha
    rcases List.mem_map.mp ha with ⟨q, hq, hqa⟩
    have hq0 : q.2 = 0 := by
      have := List.of_mem_filter hq
      simpa using this
    have hqmem2 : q ∈ initInDegree g := List.mem_of_mem_filter hq
    cases q with
    | mk b w =>
      have : assocFind (initInDegree g) b = some w :=
        mem_nodup_assocFind _ _ _ hkeysnd hqmem2
      simp only at hqa hq0
      rw [← hqa, ← hq0]
      exact this
  refine ⟨initInDegree_keys g, ?_, List.nodup_nil, ?_, ?_, ?_, ?_, ?_, trivial, hqmem, ?_⟩
  · intro k v hv
    rw [emittedDeps_nil]
    have := initInDegree_deg g hwf k v hv
    omega
  · have hsub : (((initInDegree g).filter (fun q => q.2 == 0)).map
        (fun q => q.1)).Sublist ((initInDegree g).map (fun q => q.1)) :=
      (List.filter_sublist _).map _
    exact List.Nodup.sublist hsub hkeysnd
  · intro a _ h; cases h
  · intro a h; cases h
  · intro a ha
    rw [← initInDegree_keys g]
    rcases List.mem_map.mp ha with ⟨q, hq, hqa⟩
    rw [← hqa]
    exact List.mem_map_of_mem _ (List.mem_of_mem_filter hq)
  · intro a ha d hd
    have h0 := hqmem a ha
    have hocc := initInDegree_deg g hwf a 0 h0
    have : occOf g a = 0 := by omega
    unfold occOf at this
    rw [List.length_eq_zero] at this
    rw [this] at hd
    cases hd
  · intro a hamem _ haq v hv
    intro hv0
    apply haq
    subst hv0
    have hpair : (a, (0 : Int)) ∈ initInDegree g := assocFind_mem _ _ _ hv
    have hfil : (a, (0 : Int)) ∈ (initInDegree g).filter (fun q => q.2 == 0) :=
      List.mem_filter.mpr ⟨hpair, by simp⟩
    exact List.mem_map_of_mem _ hfil

theorem foldl_add_eq {α : Type} (h : α → Nat) :
    ∀ (l : List α) (s : Nat), l.foldl (fun a x => a + h x) s = s + (l.map h).sum := by
  intro l
  induction l with
  | nil => intro s; simp
  | cons x rest ih =>
    intro s
    show rest.foldl _ (s + h x) = _
    rw [ih (s + h x)]
    simp [List.sum_cons]
    omega

theorem sumVals_eq_keys_sum (f : String → Int) :
    ∀ (l : List (String × Int)), (∀ p ∈ l, p.2 = f p.1) →
      sumVals l = ((l.map (fun q => q.1)).map f).sum := by
  intro l
  induction l with
  | nil => intro _; rfl
  | cons p rest ih =>
    intro h
    show p.2 + sumVals rest = _
    rw [h p (List.mem_cons_self _ _),
      ih (fun q hq => h q (List.mem_cons_of_mem _ hq))]
    simp [List.sum_cons]

theorem init_fuel_bound (g : TaskGraph) (hwf : WF g) :
    (((((initInDegree g).filter (fun q => q.2 == 0)).map
      (fun q => q.1)).length : Int) + sumVals (initInDegree g) ≤
      (kahnFuel g : Int)) := by
  have hqlen : (((initInDegree g).filter (fun q => q.2 == 0)).map
      (fun q => q.1)).length ≤ g.nodes.length := by
    rw [List.length_map]
    calc ((initInDegree g).filter (fun q => q.2 == 0)).length
        ≤ (initInDegree g).length := List.length_filter_le _ _
      _ = ((initInDegree g).map (fun q => q.1)).length := (List.length_map _ _).symm
      _ = (nodeKeys g).length := by rw [initInDegree_keys]
      _ = g.nodes.length := List.length_map _ _
  have hsum : sumVals (initInDegree g) =
      (((initInDegree g).map (fun q => q.1)).map
        (fun k => (occOf g k : Int))).sum := by
    apply sumVals_eq_keys_sum
    intro p hp
    cases p with
    | mk k v =>
      exact initInDegree_deg g hwf k v
        (mem_nodup_assocFind _ _ _ (initInDegree_nodup_keys g hwf) hp)
  have hsumle : ((nodeKeys g).map (fun k => (occOf g k : Int))).sum ≤
      ((g.nodes.map (fun p => (p.2.dependencies.length : Int))).sum) := by
    have hkeysform : (nodeKeys g).map (fun k => (occOf g k : Int)) =
        g.nodes.map (fun p => (occOf g p.1 : Int)) := by
      unfold nodeKeys
      rw [List.map_map]
      rfl
    rw [hkeysform]
    apply List.sum_le_sum
    intro p hp
    have hlk : lookupNode g p.1 = some p.2 := by
      rw [lookupNode_eq_assocFind]
      exact mem_nodup_assocFind _ _ _ hwf.1 (by
        cases p with
        | mk a b => exact hp)
    unfold occOf depSet
    rw [hlk]
    have := List.length_filter_le (fun d => (lookupNode g d).isSome) p.2.dependencies
    exact_mod_cast this
  have hfold : g.nodes.foldl (fun a p => a + p.2.dependencies.length) 0 =
      (g.nodes.map (fun p => p.2.dependencies.length)).sum := by
    rw [foldl_add_eq]
    omega
  unfold kahnFuel
  rw [hsum, initInDegree_keys]
  push_cast [hfold]
  have hcast2 : (List.map (Nat.cast : Nat → Int)
      (g.nodes.map (fun p => p.2.dependencies.length))).sum =
      (g.nodes.map (fun p => (p.2.dependencies.length : Int))).sum := by
    rw [List.map_map]
    rfl
  rw [hcast2]
  have h1 : ((((initInDegree g).filter (fun q => q.2 == 0)).map
      (fun q => q.1)).length : Int) ≤ (g.nodes.length : Int) := by
    exact_mod_cast hqlen
  omega

theorem depPath_snoc (g : TaskGraph) :
    ∀ (l : List String) (a b c : String), DepPath g a b l → c ∈ depSet g b →
      DepPath g a c (l ++ [b]) := by
  intro l
  induction l with
  | nil =>
    intro a b c hab hc
    exact ⟨hab, hc⟩
  | cons d l' ih =>
    intro a b c hab hc
    obtain ⟨hd, hrest⟩ := hab
    exact ⟨hd, ih d b c hrest hc⟩

theorem cycle_of_step (g : TaskGraph) (U : List String) (hne : U ≠ [])
    (hstep : ∀ u ∈ U, ∃ d, d ∈ U ∧ d ∈ depSet g u) : HasCycle g := by
  classical
  have hch : ∀ u, ∃ v, (u ∈ U → v ∈ U ∧ v ∈ depSet g u) := by
    intro u
    by_cases h : u ∈ U
    · obtain ⟨d, hd⟩ := hstep u h
      exact ⟨d, fun _ => hd⟩
    · exact ⟨u, fun hu => absurd hu h⟩
  choose f hf using hch
  set seq : Nat → String := fun n => f^[n] (U.head hne) with hseqdef
  have hseqU : ∀ n, seq n ∈ U := by
    intro n
    induction n with
    | zero => exact List.head_mem hne
    | succ n ihn =>
      have : seq (n + 1) = f (seq n) := Function.iterate_succ_apply' f n _
      rw [this]
      exact (hf (seq n) ihn).1
  have hseqD : ∀ n, seq (n + 1) ∈ depSet g (seq n) := by
    intro n
    have : seq (n + 1) = f (seq n) := Function.iterate_succ_apply' f n _
    rw [this]
    exact (hf (seq n) (hseqU n)).2
  have key : ∀ (i j : Nat), i < j → seq i = seq j → HasCycle g := by
    intro i j hlt heq
    have hpath : ∀ m, ∃ l, DepPath g (seq i) (seq (i + m + 1)) l := by
      intro m
      induction m with
      | zero => exact ⟨[], hseqD i⟩
      | succ m ihm =>
        obtain ⟨l, hl⟩ := ihm
        refine ⟨l ++ [seq (i + m + 1)], ?_⟩
        have hs := depPath_snoc g l (seq i) (seq (i + m + 1)) (seq (i + m + 2))
          hl (hseqD (i + m + 1))
        have harr : i + (m + 1) + 1 = i + m + 2 := by omega
        rw [harr]
        exact hs
    obtain ⟨l, hl⟩ := hpath (j - i - 1)
    have harr : i + (j - i - 1) + 1 = j := by omega
    rw [harr, ← heq] at hl
    exact ⟨seq i, l, hl⟩
  set N := U.length with hN
  have hmap : ∀ n : Nat, U.indexOf (seq n) < N :=
    fun n => List.indexOf_lt_length.mpr (hseqU n)
  have hcard : (Finset.univ : Finset (Fin N)).card <
      (Finset.univ : Finset (Fin (N + 1))).card := by
    simp
  obtain ⟨i, _, j, _, hij, hphi⟩ :=
    Finset.exists_ne_map_eq_of_card_lt_of_maps_to hcard
      (f := fun (a : Fin (N + 1)) => (⟨U.indexOf (seq a.1), hmap a.1⟩ : Fin N))
      (fun a _ => Finset.mem_univ _)
  have hidx : U.indexOf (seq i.1) = U.indexOf (seq j.1) :=
    congrArg Fin.val hphi
  have hseq_eq : seq i.1 = seq j.1 := by
    have h1 := List.getElem_indexOf (l := U) (a := seq i.1) (hmap i.1)
    have h2 := List.getElem_indexOf (l := U) (a := seq j.1) (hmap j.1)
    rw [← h1, ← h2]
    congr 1
  have hijne : i.1 ≠ j.1 := fun h => hij (Fin.ext h)
  rcases Nat.lt_or_ge i.1 j.1 with h | h
  · exact key i.1 j.1 h hseq_eq
  · have hlt : j.1 < i.1 := by omega
    exact key j.1 i.1 hlt hseq_eq.symm

theorem depSet_nodup (g : TaskGraph) (hnd : NoDupKnownDeps g) (u : String) :
    (depSet g u).Nodup := by
  unfold depSet
  cases hlk : lookupNode g u with
  | none => exact List.nodup_nil
  | some n =>
    have hfind : assocFind g.nodes u = some n := by
      rw [← lookupNode_eq_assocFind]; exact hlk
    exact hnd (u, n) (assocFind_mem g.nodes u n hfind)

theorem depSet_ne_nil_mem_keys (g : TaskGraph) (u d : String)
    (hd : d ∈ depSet g u) : u ∈ nodeKeys g := by
  unfold depSet at hd
  cases hlk : lookupNode g u with
  | none => rw [hlk] at hd; cases hd
  | some n => exact (mem_nodeKeys_iff_isSome g u).mpr (by rw [hlk]; rfl)

theorem depPath_step_set (g : TaskGraph) :
    ∀ (l : List String) (a b : String), DepPath g a b l →
      ∀ c ∈ a :: l, ∃ cn, cn ∈ a :: (l ++ [b]) ∧ cn ∈ depSet g c := by
  intro l
  induction l with
  | nil =>
    intro a b hab c hc
    have hca : c = a := by simpa using hc
    subst hca
    exact ⟨b, by simp, hab⟩
  | cons d l' ih =>
    intro a b hab c hc
    obtain ⟨hd, hrest⟩ := hab
    rcases List.mem_cons.mp hc with h | h
    · subst h
      exact ⟨d, by simp, hd⟩
    · obtain ⟨cn, hcn1, hcn2⟩ := ih d b hrest c h
      exact ⟨cn, List.mem_cons_of_mem a hcn1, hcn2⟩

theorem cycle_step_set (g : TaskGraph) (a : String) (l : List String)
    (hpath : DepPath g a a l) :
    ∀ c ∈ a :: l, ∃ cn, cn ∈ a :: l ∧ cn ∈ depSet g c := by
  intro c hc
  obtain ⟨cn, hcn1, hcn2⟩ := depPath_step_set g l a a hpath c hc
  refine ⟨cn, ?_, hcn2⟩
  rcases List.mem_cons.mp hcn1 with h | h
  · rw [h]; exact List.mem_cons_self _ _
  · rcases List.mem_append.mp h with h2 | h2
    · exact List.mem_cons_of_mem _ h2
    · have hca : cn = a := by simpa using h2
      rw [hca]; exact List.mem_cons_self _ _

theorem init_queue_occ_zero (g : TaskGraph) (hwf : WF g) (c : String)
    (hc : c ∈ ((initInDegree g).filter (fun q => q.2 == 0)).map (fun q => q.1)) :
    occOf g c = 0 := by
  rcases List.mem_map.mp hc with ⟨q, hqf, hq1⟩
  cases q with
  | mk k v =>
    have hkc : k = c := hq1
    subst hkc
    have hv0 : v = 0 := by simpa using (List.of_mem_filter hqf)
    have hqm : (k, v) ∈ initInDegree g := List.mem_of_mem_filter hqf
    have hfind : assocFind (initInDegree g) k = some v :=
      mem_nodup_assocFind _ _ _ (initInDegree_nodup_keys g hwf) hqm
    have hocc := initInDegree_deg g hwf k v hfind
    omega

/-- C2: on a well-formed graph whose known-dependency lists are
duplicate-free, `topological_order` either returns every task id
exactly once, each task after all of its known dependencies, or raises
the cycle error; it raises exactly when the known-dependency relation
has a cycle, and the ids carried by the error include every task id
lying on a dependency cycle. -/
theorem c2_topological_order (g : TaskGraph) (hwf : WF g)
    (hnd : NoDupKnownDeps g) :
    (∀ order, topologicalOrder g = Except.ok order →
      order.Perm (nodeKeys g) ∧
      (∀ o1 a o2, order = o1 ++ a :: o2 → ∀ d ∈ depSet g a, d ∈ o1)) ∧
    (∀ missing, topologicalOrder g = Except.error missing →
      missing ≠ [] ∧ HasCycle g ∧
      (∀ a l, DepPath g a a l → a ∈ missing)) ∧
    (HasCycle g → ∃ missing, topologicalOrder g = Except.error missing) := by
  obtain ⟨res, hres⟩ : ∃ r, kahnGo g (kahnFuel g) (initInDegree g)
      (((initInDegree g).filter (fun q => q.2 == 0)).map (fun q => q.1)) [] = r :=
    ⟨_, rfl⟩
  have hspec := kahnGo_spec g hwf (kahnFuel g) (initInDegree g)
    (((initInDegree g).filter (fun q => q.2 == 0)).map (fun q => q.1)) []
    (init_inv g hwf) (init_fuel_bound g hwf)
  rw [hres] at hspec
  obtain ⟨invF, havoid⟩ := hspec
  have htopo : topologicalOrder g =
      if res.1.length ≠ g.nodes.length then
        Except.error ((nodeKeys g).filter (fun k => !(res.1.contains k)))
      else Except.ok res.1 := by
    rw [← hres]
    rfl
  have hkeyslen : (nodeKeys g).length = g.nodes.length := by
    simp [nodeKeys]
  have hordsub : res.1 ⊆ nodeKeys g := fun x hx => invF.order_sub x hx
  have hsubp : res.1.Subperm (nodeKeys g) :=
    List.subperm_of_subset invF.order_nodup hordsub
  have hperm_of_len : res.1.length = g.nodes.length → res.1.Perm (nodeKeys g) := by
    intro h2
    exact hsubp.perm_of_length_le (by omega)
  have hcycfacts : ∀ a l, DepPath g a a l → a ∉ res.1 ∧ a ∈ nodeKeys g := by
    intro a l hpath
    have hCstep := cycle_step_set g a l hpath
    have hCq : ∀ c ∈ a :: l,
        c ∉ ((initInDegree g).filter (fun q => q.2 == 0)).map (fun q => q.1) := by
      intro c hc hcq
      obtain ⟨cn, _, h2⟩ := hCstep c hc
      have hocc0 : occOf g c = 0 := init_queue_occ_zero g hwf c hcq
      have hnil : depSet g c = [] := List.length_eq_zero.mp hocc0
      rw [hnil] at h2
      cases h2
    have hnotord := havoid (a :: l) hCstep
      (fun c hc => ⟨List.not_mem_nil c, hCq c hc⟩) a (List.mem_cons_self _ _)
    obtain ⟨cn, _, h2⟩ := hCstep a (List.mem_cons_self _ _)
    exact ⟨hnotord, depSet_ne_nil_mem_keys g a cn h2⟩
  refine ⟨?_, ?_, ?_⟩
  · intro order hok
    rw [htopo] at hok
    by_cases hlen : res.1.length ≠ g.nodes.length
    · rw [if_pos hlen] at hok
      cases hok
    · rw [if_neg hlen] at hok
      have heq := Except.ok.inj hok
      subst heq
      refine ⟨hperm_of_len (not_ne_iff.mp hlen), ?_⟩
      intro o1 a o2 hsplit d hd
      rcases depsBefore_split g res.1 [] o1 a o2 invF.respects hsplit d hd with h | h
      · cases h
      · exact h
  · intro missing herr
    rw [htopo] at herr
    by_cases hlen : res.1.length ≠ g.nodes.length
    · rw [if_pos hlen] at herr
      have heq := Except.error.inj herr
      subst heq
      have hne : (nodeKeys g).filter (fun k => !(res.1.contains k)) ≠ [] := by
        intro hnil
        have hallmem : ∀ k ∈ nodeKeys g, k ∈ res.1 := by
          intro k hk
          by_contra hkno
          have hmem : k ∈ (nodeKeys g).filter (fun k => !(res.1.contains k)) :=
            List.mem_filter.mpr ⟨hk, by simp [hkno]⟩
          rw [hnil] at hmem
          cases hmem
        have hsubp2 : (nodeKeys g).Subperm res.1 :=
          List.subperm_of_subset hwf.1 hallmem
        have h1 := hsubp.length_le
        have h2 := hsubp2.length_le
        exact hlen (by omega)
      have hstep : ∀ u ∈ (nodeKeys g).filter (fun k => !(res.1.contains k)),
          ∃ d, d ∈ (nodeKeys g).filter (fun k => !(res.1.contains k)) ∧
            d ∈ depSet g u := by
        intro u humem
        have hu := List.mem_filter.mp humem
        have hu2 : u ∉ res.1 := by simpa using hu.2
        have husome : (assocFind res.2 u).isSome = true := by
          rw [assocFind_isSome_iff_mem, invF.keys_eq]
          exact hu.1
        obtain ⟨v, hv⟩ := Option.isSome_iff_exists.mp husome
        have hvne : v ≠ 0 :=
          invF.unqueued u hu.1 hu2 (List.not_mem_nil u) v hv
        have hdeg := invF.deg u v hv
        have hex : ∃ d ∈ depSet g u, d ∉ res.1 := by
          by_contra hno
          push_neg at hno
          have hfeq : (depSet g u).dedup.filter (fun d => decide (d ∈ res.1)) =
              (depSet g u).dedup := by
            apply List.filter_eq_self.mpr
            intro d hdm
            simpa using hno d (List.mem_dedup.mp hdm)
          have hall : emittedDeps g res.1 u = occOf g u := by
            unfold emittedDeps occOf
            rw [hfeq, List.dedup_eq_self.mpr (depSet_nodup g hnd u)]
          rw [hall] at hdeg
          omega
        obtain ⟨d, hd1, hd2⟩ := hex
        exact ⟨d, List.mem_filter.mpr ⟨depSet_sub_keys g u d hd1, by simp [hd2]⟩,
          hd1⟩
      refine ⟨hne, cycle_of_step g _ hne hstep, ?_⟩
      intro a l hpath
      obtain ⟨hnotord, hkeys⟩ := hcycfacts a l hpath
      exact List.mem_filter.mpr ⟨hkeys, by simp [hnotord]⟩
    · rw [if_neg hlen] at herr
      cases herr
  · rintro ⟨a, l, hpath⟩
    rw [htopo]
    by_cases hlen : res.1.length ≠ g.nodes.length
    · exact ⟨_, by rw [if_pos hlen]⟩
    · exfalso
      obtain ⟨hnotord, hkeys⟩ := hcycfacts a l hpath
      exact hnotord ((hperm_of_len (not_ne_iff.mp hlen)).mem_iff.mpr hkeys)

/-- Acyclic graph with a duplicated dependency entry: `D` lists its
known dependency `A` twice, so the in-degree construction counts two
occurrences while the reverse-dependency set holds `A ↦ {D}` only
once. -/
def gDupC2 : TaskGraph :=
  addTasks TaskGraph.empty
    [⟨"A", "Task A", "core", "developer", 1, []⟩,
     ⟨"D", "Task D", "core", "developer", 2, ["A", "A"]⟩]

/-- C2 counterexample to the claim as stated for every graph:
`gDupC2` has no dependency cycle, yet `topological_order` raises the
cycle error (naming `D`), because emitting `A` decrements `D`'s
multiplicity-two in-degree only once.  The no-duplicate hypothesis of
the amended claim indeed fails here. -/
theorem c2_counterexample :
    topologicalOrder gDupC2 = Except.error ["D"] ∧
    ¬ HasCycle gDupC2 ∧ ¬ NoDupKnownDeps gDupC2 := by
  have hdA : depSet gDupC2 "A" = [] := by rfl
  have hdD : depSet gDupC2 "D" = ["A", "A"] := by rfl
  have hkeys : nodeKeys gDupC2 = ["A", "D"] := by rfl
  have hedge : ∀ u v : String, v ∈ depSet gDupC2 u → u = "D" ∧ v = "A" := by
    intro u v hv
    by_cases hu1 : u = "A"
    · subst hu1
      rw [hdA] at hv
      cases hv
    · by_cases hu2 : u = "D"
      · subst hu2
        rw [hdD] at hv
        refine ⟨rfl, ?_⟩
        rcases List.mem_cons.mp hv with h | h
        · exact h
        · simpa using h
      · unfold depSet at hv
        cases hlk : lookupNode gDupC2 u with
        | some n =>
          have hmemk : u ∈ nodeKeys gDupC2 :=
            (mem_nodeKeys_iff_isSome gDupC2 u).mpr (by rw [hlk]; rfl)
          rw [hkeys] at hmemk
          rcases List.mem_cons.mp hmemk with h | h
          · exact absurd h hu1
          · exact absurd (by simpa using h) hu2
        | none =>
          rw [hlk] at hv
          cases hv
  have hApath : ∀ (l : List String) (b : String), ¬ DepPath gDupC2 "A" b l := by
    intro l
    cases l with
    | nil =>
      intro b hb
      have h1 : b ∈ depSet gDupC2 "A" := hb
      rw [hdA] at h1
      cases h1
    | cons c l' =>
      intro b hb
      obtain ⟨h1, _⟩ := hb
      rw [hdA] at h1
      cases h1
  refine ⟨by rfl, ?_, ?_⟩
  · rintro ⟨a, l, hpath⟩
    cases l with
    | nil =>
      have h1 : a ∈ depSet gDupC2 a := hpath
      obtain ⟨huD, hvA⟩ := hedge a a h1
      subst huD
      exact absurd hvA (by decide)
    | cons c l' =>
      obtain ⟨h1, h2⟩ := hpath
      obtain ⟨_, hcA⟩ := hedge a c h1
      subst hcA
      exact hApath l' a h2
  · intro hnd
    have := depSet_nodup gDupC2 hnd "D"
    rw [hdD] at this
    simp at this

/-- Witness instantiating `c2_topological_order` on `gW1`. -/
theorem c2_witness :
    (WF gW1 ∧ NoDupKnownDeps gW1) ∧
    ((∀ order, topologicalOrder gW1 = Except.ok order →
      order.Perm (nodeKeys gW1) ∧
      (∀ o1 a o2, order = o1 ++ a :: o2 → ∀ d ∈ depSet gW1 a, d ∈ o1)) ∧
    (∀ missing, topologicalOrder gW1 = Except.error missing →
      missing ≠ [] ∧ HasCycle gW1 ∧
      (∀ a l, DepPath gW1 a a l → a ∈ missing)) ∧
    (HasCycle gW1 → ∃ missing, topologicalOrder gW1 = Except.error missing)) :=
  ⟨⟨by decide, by decide⟩, c2_topological_order gW1 (by decide) (by decide)⟩

end Auton
